import Mathlib

/-!
Verification development for the TSN latency analysis repository
(CoRE-RG/TSNLatencyAnalysis).

The Python sources are shallowly embedded:
* numeric values are modelled by `ℚ` (Python ints and floats used by the
  formulas; `math.floor`/`math.ceil` become `Int.floor`/`Int.ceil`),
* Python `dict`s with string keys become insertion-ordered association
  lists `List (String × ℚ)`,
* the mutable BFS worklists of `Network.calculateShortestPath` become an
  explicit state record threaded through a fuelled loop,
* methods that mutate no attribute of `self` are embedded as pure
  functions of their receiver.
-/

namespace TSN

/-- Embeds class `Flow` of `analysis/network_components.py`
(src, dst, size in bytes, deadline, period, priority). -/
structure Flow where
  src : String
  dst : String
  size : ℚ
  deadline : ℚ
  period : ℚ
  priority : ℤ
deriving DecidableEq

/-- Embeds class `Link` of `analysis/network_components.py`. -/
structure Link where
  src : String
  dst : String
  rate : ℚ
  delay : ℚ
  idleSlope : ℚ
deriving DecidableEq

/-- Embeds `Link.isLinkFor` with the default `ignoreDirection=False`
(the repository never passes `True`): exact-direction match. -/
def Link.isLinkFor (l : Link) (src dst : String) : Bool :=
  l.src == src && l.dst == dst

/-- Embeds class `Path` of `analysis/network_components.py`.  The Python
constructor's default `links=[]` argument is modelled as the fresh empty
list. -/
structure Path where
  src : String
  dst : String
  links : List Link
deriving DecidableEq

/-- Embeds `Path.addLinks`: append the link unless a link with the same
ordered (src, dst) pair is already on the path. -/
def Path.addLinks (p : Path) (link : Link) : Path :=
  if p.links.any (fun l => l.isLinkFor link.src link.dst) then p
  else { p with links := p.links ++ [link] }

/-- Embeds class `Network` of `analysis/network_components.py`. -/
structure Network where
  bridges : List String
  nodes : List String
  links : List Link
  flows : List Flow
  paths : List Path
  IFG : ℚ
deriving DecidableEq

/-- Embeds `Network.addBridge`: append unless present. -/
def Network.addBridge (net : Network) (bridge : String) : Network :=
  if bridge ∈ net.bridges then net
  else { net with bridges := net.bridges ++ [bridge] }

/-- Embeds `Network.addNode`: append unless present. -/
def Network.addNode (net : Network) (node : String) : Network :=
  if node ∈ net.nodes then net
  else { net with nodes := net.nodes ++ [node] }

/-- Embeds `Network.getLink`: first link matching the ordered pair, else
`none` (the Python `None` sentinel). -/
def Network.getLink (net : Network) (src dst : String) : Option Link :=
  net.links.find? (fun link => link.isLinkFor src dst)

/-- Embeds `Network.addLink`: insert a fresh Link only when no link for
the ordered (src, dst) pair exists. -/
def Network.addLink (net : Network) (src dst : String) (rate delay idleSlope : ℚ) :
    Network :=
  if (net.getLink src dst).isSome then net
  else { net with links := net.links ++ [⟨src, dst, rate, delay, idleSlope⟩] }

/-- Embeds `Network.addBidirectionalLink`: two directional insertions. -/
def Network.addBidirectionalLink (net : Network) (src dst : String)
    (rate delay idleSlope : ℚ) : Network :=
  (net.addLink src dst rate delay idleSlope).addLink dst src rate delay idleSlope

/-- Embeds `Network.lookupPath`: first cached path for the ordered pair. -/
def Network.lookupPath (net : Network) (src dst : String) : Option Path :=
  net.paths.find? (fun p => p.src == src && p.dst == dst)

/-- Embeds `Network.addPath`: cache the path unless one for the ordered
pair is already cached. -/
def Network.addPath (net : Network) (path : Path) : Network :=
  if (net.lookupPath path.src path.dst).isSome then net
  else { net with paths := net.paths ++ [path] }

/-- Embeds `Network.getFlow`: first flow matching the ordered pair. -/
def Network.getFlow (net : Network) (src dst : String) : Option Flow :=
  net.flows.find? (fun f => f.src == src && f.dst == dst)

/-- Embeds `Network.addFlow`: insert unless a flow for the ordered
(src, dst) pair exists. -/
def Network.addFlow (net : Network) (flow : Flow) : Network :=
  if (net.getFlow flow.src flow.dst).isSome then net
  else { net with flows := net.flows ++ [flow] }

/-- Embeds `Network.getInputIdleSlopes`: idle slopes of every link whose
destination is `link.src`, excluding the direct reverse of `link`. -/
def Network.getInputIdleSlopes (net : Network) (link : Link) : List ℚ :=
  (net.links.filter (fun l => !(l.src == link.dst) && l.dst == link.src)).map
    (fun l => l.idleSlope)

/-- Embeds `Network.getNumInputLinks` with the default
`onlyCountLinksWithFlows=False` (the repository's analysis core always
uses the default; the `True` branch calls the nonexistent method
`findPath` and cannot run). -/
def Network.getNumInputLinks (net : Network) (link : Link) : ℕ :=
  net.links.countP (fun l => !(l.src == link.dst) && l.dst == link.src)

/-- Embeds `Network.findClassMaxFrame`: running maximum of flow sizes,
starting from 0. -/
def Network.findClassMaxFrame (net : Network) : ℚ :=
  net.flows.foldl (fun maxFrame f => if maxFrame < f.size then f.size else maxFrame) 0

/-- Embeds class `CBSLatencyCalculator` of
`analysis/latency_calculation_cbs.py`: the configuration attributes set
by `__init__`. -/
structure CBSLatencyCalculator where
  LINKSPEED : ℚ
  CMI : ℚ
  IFG : ℚ
  MIN_PACKET : ℚ
  MIN_PACKET_BITS : ℚ
  MIN_PACKET_BITS_W_IFG : ℚ
  MAX_PACKET : ℚ
  MAX_PACKET_BITS : ℚ
  MAX_PACKET_BITS_W_IFG : ℚ
  ctMaxFrame : ℚ
deriving DecidableEq

/-- Embeds `CBSLatencyCalculator.__init__` (derived attribute
computation). -/
def mkCalculator (linkspeed cmi min_packet_bytes max_packet_bytes ifg_bits : ℚ) :
    CBSLatencyCalculator :=
  { LINKSPEED := linkspeed
    CMI := cmi
    IFG := ifg_bits
    MIN_PACKET := min_packet_bytes
    MIN_PACKET_BITS := min_packet_bytes * 8
    MIN_PACKET_BITS_W_IFG := min_packet_bytes * 8 + ifg_bits
    MAX_PACKET := max_packet_bytes
    MAX_PACKET_BITS := max_packet_bytes * 8
    MAX_PACKET_BITS_W_IFG := max_packet_bytes * 8 + ifg_bits
    ctMaxFrame := max_packet_bytes * 8 + ifg_bits }

/-- Embeds `CBSLatencyCalculator.baStandard` (802.1BA-2021 Eq. 6-1 with
the negative catch-up term clamped to zero). -/
def CBSLatencyCalculator.baStandard (c : CBSLatencyCalculator)
    (idleSlope streamMaxFrame : ℚ) : ℚ :=
  let tMaxPacket := c.ctMaxFrame / c.LINKSPEED
  let tStreamPacket := (streamMaxFrame - c.IFG) / c.LINKSPEED
  let delayA := idleSlope * c.CMI / c.LINKSPEED
  let tClassA := (delayA - streamMaxFrame / c.LINKSPEED) * c.LINKSPEED / idleSlope
  let tClassA2 := if tClassA < 0 then 0 else tClassA
  tMaxPacket + tClassA2 + tStreamPacket

/-- Embeds `CBSLatencyCalculator.qStandardL3V1` (802.1Q-2022 Annex L.3,
count-based fan-in variant).  The Python `for i in range(nrInputLinks)`
loop threading `(fan_in_data, B0)` becomes a fold. -/
def CBSLatencyCalculator.qStandardL3V1 (c : CBSLatencyCalculator)
    (idleSlope classMaxFrame : ℚ) (nrInputLinks : ℤ) : ℚ :=
  let qDelayStand := c.ctMaxFrame / c.LINKSPEED
  let st := (List.range nrInputLinks.toNat).foldl
    (fun (st : ℚ × ℚ) _ =>
      if 0 < st.2 then
        let Bi := idleSlope
        let W := c.LINKSPEED - max st.2 Bi
        (st.1 + (c.ctMaxFrame * idleSlope * c.LINKSPEED / (W * c.LINKSPEED)
          + classMaxFrame * c.LINKSPEED / W), st.2 - Bi)
      else (st.1 + classMaxFrame, st.2))
    (0, idleSlope)
  let fan_in_delay := st.1 / c.LINKSPEED
  qDelayStand + fan_in_delay + classMaxFrame / c.LINKSPEED

/-- Embeds `CBSLatencyCalculator.qStandardL3V2` (802.1Q-2022 Annex L.3
with per-link slopes and the permanent-buffer term equal to the fan-in
delay). -/
def CBSLatencyCalculator.qStandardL3V2 (c : CBSLatencyCalculator)
    (idleSlope classMaxFrame : ℚ) (inputIdleSlopes : List ℚ) : ℚ :=
  let queueing_delay := c.ctMaxFrame / c.LINKSPEED
  let st := inputIdleSlopes.foldl
    (fun (st : ℚ × ℚ) Bi =>
      if 0 < st.2 then
        let W := c.LINKSPEED - max st.2 Bi
        (st.1 + (c.ctMaxFrame * idleSlope / W + classMaxFrame * c.LINKSPEED / W),
          st.2 - Bi)
      else (st.1 + classMaxFrame, st.2))
    (0, idleSlope)
  let fan_in_delay := st.1 / c.LINKSPEED
  let permanent_delay := fan_in_delay
  queueing_delay + fan_in_delay + permanent_delay

/-- Embeds `CBSLatencyCalculator.getMaxReservedPlenary`:
`floor(CMI * idleSlope)`. -/
def CBSLatencyCalculator.getMaxReservedPlenary (c : CBSLatencyCalculator)
    (idleSlope : ℚ) : ℤ :=
  ⌊c.CMI * idleSlope⌋

/-- The intermediate count `N` of `CBSLatencyCalculator.plenary100Mbit`:
`min(nrInputLinks - 1, floor((maxReserved - streamMaxFrame) /
MIN_PACKET_BITS_W_IFG))`, exposed as its own definition. -/
def CBSLatencyCalculator.plenary100MbitN (c : CBSLatencyCalculator)
    (idleSlope streamMaxFrame : ℚ) (nrInputLinks : ℤ) : ℤ :=
  min (nrInputLinks - 1)
    ⌊(((c.getMaxReservedPlenary idleSlope : ℚ)) - streamMaxFrame) /
      c.MIN_PACKET_BITS_W_IFG⌋

/-- Embeds `CBSLatencyCalculator.plenary100Mbit` (plenary formula for
100 Mbit/s media; extra packets only when `N > 0`). -/
def CBSLatencyCalculator.plenary100Mbit (c : CBSLatencyCalculator)
    (idleSlope streamMaxFrame : ℚ) (nrInputLinks : ℤ) : ℚ :=
  let maxReserved : ℚ := (c.getMaxReservedPlenary idleSlope : ℚ)
  let N : ℤ := c.plenary100MbitN idleSlope streamMaxFrame nrInputLinks
  let otherPackets : ℚ :=
    if 0 < N then
      2 * (maxReserved - streamMaxFrame)
        - (⌈(maxReserved - streamMaxFrame) / (N : ℚ)⌉ : ℚ)
    else 0
  let qDelayOctets := c.ctMaxFrame + otherPackets + streamMaxFrame
  qDelayOctets / c.LINKSPEED

/-- Embeds `CBSLatencyCalculator.plenaryFasterMedia` (closed form:
`CMI + ctMaxFrame / LINKSPEED`). -/
def CBSLatencyCalculator.plenaryFasterMedia (c : CBSLatencyCalculator) : ℚ :=
  c.CMI + c.ctMaxFrame / c.LINKSPEED

/-- Embeds `CBSLatencyCalculator.plenaryFasterMediaV2` (full credit
derivation for faster media, negative `streamBits` clamped to zero). -/
def CBSLatencyCalculator.plenaryFasterMediaV2 (c : CBSLatencyCalculator)
    (idleSlope streamMaxFrame : ℚ) : ℚ :=
  let maxReserved : ℚ := (c.getMaxReservedPlenary idleSlope : ℚ)
  let N : ℚ := c.LINKSPEED / 100000000
  let streamBits0 : ℤ := ⌈(maxReserved - streamMaxFrame) / N⌉
  let streamBits : ℚ := if streamBits0 < 0 then 0 else (streamBits0 : ℚ)
  let sendSlope := idleSlope - c.LINKSPEED
  let loCredit := streamBits * sendSlope / c.LINKSPEED
  let hiCredit := c.ctMaxFrame * idleSlope / c.LINKSPEED
  let maxBurstSize := c.LINKSPEED * (loCredit - hiCredit) / sendSlope
  let maxBurstTime := (loCredit - hiCredit) / sendSlope
  let totalBitsQueued :=
    N * maxBurstSize + (⌊maxBurstTime / c.CMI⌋ : ℚ) * streamMaxFrame
  totalBitsQueued / idleSlope - (maxBurstTime - streamBits / c.LINKSPEED)
    + c.ctMaxFrame / c.LINKSPEED

/-- Result dictionaries of the formula engine: insertion-ordered
association lists from algorithm name to delay value, embedding the
Python `dict`s built by `runAlgorithmsForPort` and
`getEmptyResultDict`. -/
abbrev ResultDict := List (String × ℚ)

/-- Reads `d[key]` of a Python result dict (every key read in the
repository is always present; absent keys default to 0 here). -/
def dictGet (d : ResultDict) (key : String) : ℚ :=
  (d.lookup key).getD 0

/-- Writes `d[key] = v` on a Python result dict: replace the value in
place if the key exists, otherwise append the new binding. -/
def dictSet : ResultDict → String → ℚ → ResultDict
  | [], key, v => [(key, v)]
  | p :: rest, key, v =>
    if p.1 == key then (key, v) :: rest else p :: dictSet rest key v

/-- Embeds `CBSLatencyCalculator.runAlgorithmsForPort`: run all seven
formulas; `sorted(...)` is a fresh ascending sort and the subsequent
`.reverse()` acts on that fresh copy. -/
def CBSLatencyCalculator.runAlgorithmsForPort (c : CBSLatencyCalculator)
    (idleSlope streamMaxFrame classMaxFrame : ℚ) (nrInputLinks : ℤ)
    (inputIdleSlopes : List ℚ) : ResultDict :=
  let inputIdleSlopesSorted := inputIdleSlopes.insertionSort (fun a b => a ≤ b)
  [("baStandard", c.baStandard idleSlope streamMaxFrame),
   ("qStandardL3V1", c.qStandardL3V1 idleSlope classMaxFrame nrInputLinks),
   ("qStandardL3V2", c.qStandardL3V2 idleSlope classMaxFrame inputIdleSlopesSorted),
   ("plenary100Mbit", c.plenary100Mbit idleSlope streamMaxFrame nrInputLinks),
   ("plenaryFasterMedia", c.plenaryFasterMedia),
   ("plenaryFasterMediaV2", c.plenaryFasterMediaV2 idleSlope streamMaxFrame),
   ("qStandardL3V3",
     c.qStandardL3V2 idleSlope classMaxFrame inputIdleSlopesSorted.reverse)]

/-- Embeds `CBSLatencyCalculator.getEmptyResultDict`. -/
def getEmptyResultDict : ResultDict :=
  [("baStandard", 0),
   ("qStandardL3V1", 0),
   ("qStandardL3V2", 0),
   ("plenary100Mbit", 0),
   ("plenaryFasterMedia", 0),
   ("plenaryFasterMediaV2", 0),
   ("qStandardL3V3", 0)]

/-- State-threaded embedding of `runAlgorithmsForPort` used for the
frame-effect claim: it returns, besides the result dict, the
calculator object and the contents of the caller's `inputIdleSlopes`
list after the call.  The method writes no attribute of `self`, and
Python's `sorted(...)` allocates a fresh list, so the in-place
`.reverse()` touches only that copy. -/
def CBSLatencyCalculator.runAlgorithmsForPortSt (c : CBSLatencyCalculator)
    (idleSlope streamMaxFrame classMaxFrame : ℚ) (nrInputLinks : ℤ)
    (inputIdleSlopes : List ℚ) :
    ResultDict × CBSLatencyCalculator × List ℚ :=
  (c.runAlgorithmsForPort idleSlope streamMaxFrame classMaxFrame nrInputLinks
      inputIdleSlopes,
    c, inputIdleSlopes)

/-- Embeds class `NetworkLatencyAnalysis` of
`analysis/network_latency_analysis.py` (its attributes after
`__init__`). -/
structure NetworkLatencyAnalysis where
  network : Network
  calculator : CBSLatencyCalculator
  linkspeed : ℚ
  cmi : ℚ
  switchDelay : ℚ
  ifg : ℚ
deriving DecidableEq

/-- Embeds `NetworkLatencyAnalysis.calculateQueueDelayForLink`
(the Python default argument `classMaxFrame=-1` is passed explicitly;
`-1` selects the network-derived class max frame). -/
def NetworkLatencyAnalysis.calculateQueueDelayForLink
    (a : NetworkLatencyAnalysis) (link : Link) (flow : Flow)
    (classMaxFrame : ℚ) : ResultDict :=
  if link.src ∈ a.network.nodes then getEmptyResultDict
  else
    let classMaxFrame2 :=
      if classMaxFrame = -1 then a.network.findClassMaxFrame * 8 + a.ifg
      else classMaxFrame
    let streamMaxFrame := flow.size * 8 + a.ifg
    let inputIdleSlopes := a.network.getInputIdleSlopes link
    let nrInputLinks : ℤ := (a.network.getNumInputLinks link : ℤ)
    a.calculator.runAlgorithmsForPort link.idleSlope streamMaxFrame classMaxFrame2
      nrInputLinks inputIdleSlopes

/-- The inner `for key in result` loop of
`calculateEndToEndDelayForFlow`: for every key of the per-link result,
add queue delay plus transmission delay, and additionally the switch
delay when the hop's source is a bridge. -/
def NetworkLatencyAnalysis.e2eAccumulate (a : NetworkLatencyAnalysis)
    (transmissionDelay : ℚ) (link : Link) (flowDelay result : ResultDict) :
    ResultDict :=
  (result.map Prod.fst).foldl
    (fun fd key =>
      let fd2 := dictSet fd key (dictGet fd key + dictGet result key + transmissionDelay)
      if link.src ∈ a.network.bridges then
        dictSet fd2 key (dictGet fd2 key + a.switchDelay)
      else fd2)
    flowDelay

/-- Embeds `NetworkLatencyAnalysis.calculateEndToEndDelayForFlow`. -/
def NetworkLatencyAnalysis.calculateEndToEndDelayForFlow
    (a : NetworkLatencyAnalysis) (flow : Flow) : ResultDict :=
  let classMaxFrame := a.network.findClassMaxFrame * 8 + a.ifg
  let flowDelay := getEmptyResultDict
  let transmissionDelay := (flow.size * 8 + a.ifg) / a.linkspeed
  match a.network.lookupPath flow.src flow.dst with
  | none => flowDelay
  | some path =>
    path.links.foldl
      (fun fd link =>
        a.e2eAccumulate transmissionDelay link fd
          (a.calculateQueueDelayForLink link flow classMaxFrame))
      flowDelay

/-- Worklist state of Dijkstra-as-BFS in
`Network.calculateShortestPath`: the Python locals `unvisited`,
`visited`, `distances` and `previous` (the two dicts become association
lists; fresh keys are consed on, which is observationally the Python
dict since every key is written at most once). -/
structure BfsState where
  unvisited : List String
  visited : List String
  dist : List (String × ℕ)
  prev : List (String × String)
deriving DecidableEq

/-- Body of the `for link in self.links` loop of
`calculateShortestPath`: discover `link.dst` from `current`. -/
def bfsProcessLink (current : String) (s : BfsState) (link : Link) : BfsState :=
  if link.src = current ∧ link.dst ∉ s.visited then
    let s1 := if link.dst ∈ s.unvisited then s
              else { s with unvisited := s.unvisited ++ [link.dst] }
    if (s1.dist.lookup link.dst).isSome then s1
    else
      { s1 with
        dist := (link.dst, (s1.dist.lookup current).getD 0 + 1) :: s1.dist,
        prev := (link.dst, current) :: s1.prev }
  else s

/-- One pass over all links for the current node. -/
def bfsProcessLinks (links : List Link) (current : String) (s : BfsState) : BfsState :=
  links.foldl (bfsProcessLink current) s

/-- The `while unvisited` loop of `calculateShortestPath`, fuelled: pop
the head of the queue, mark it visited, relax its outgoing links.  The
loop of the source terminates after at most `links.length + 1`
iterations (each iteration consumes one queue entry and entries are
enqueued at most once per link), so that much fuel reproduces it
exactly. -/
def bfsLoop (links : List Link) : ℕ → BfsState → BfsState
  | 0, s => s
  | fuel + 1, s =>
    match s.unvisited with
    | [] => s
    | current :: rest =>
      bfsLoop links fuel
        (bfsProcessLinks links current
          { s with unvisited := rest, visited := s.visited ++ [current] })

/-- The `while current != src` reconstruction loop of
`calculateShortestPath`: walk the predecessor map backwards from `dst`,
collecting the corresponding links via `Path.addLinks`.  Fuelled; a
missing predecessor or link stops the walk (the Python code would raise
there, which the verified preconditions rule out). -/
def reconstructLoop (net : Network) (prev : List (String × String)) (src : String) :
    ℕ → String → Path → Path
  | 0, _, path => path
  | fuel + 1, current, path =>
    if current = src then path
    else
      match prev.lookup current with
      | none => path
      | some u =>
        match net.getLink u current with
        | none => reconstructLoop net prev src fuel u path
        | some link => reconstructLoop net prev src fuel u (path.addLinks link)

/-- Embeds `Network.calculateShortestPath`: return the cached path if
one exists, otherwise run the search, reconstruct, cache and return.
The Python `Path(src, dst)` constructor call is modelled with a fresh
empty link list. -/
def Network.calculateShortestPath (net : Network) (src dst : String) :
    Path × Network :=
  match net.lookupPath src dst with
  | some path => (path, net)
  | none =>
    let final := bfsLoop net.links (net.links.length + 1) ⟨[src], [], [(src, 0)], []⟩
    let path := reconstructLoop net final.prev src (net.links.length + 1) dst
      ⟨src, dst, []⟩
    (path, net.addPath path)

/-- The list of links `ls` is a directed walk from `s` to `d` (each
link departs from where the previous one arrived). -/
def chainFrom : String → List Link → String → Prop
  | s, [], d => s = d
  | s, link :: rest, d => link.src = s ∧ chainFrom link.dst rest d

instance chainFromDec : (s : String) → (ls : List Link) → (d : String) →
    Decidable (chainFrom s ls d)
  | s, [], d => inferInstanceAs (Decidable (s = d))
  | s, link :: rest, d =>
    have := chainFromDec link.dst rest d
    inferInstanceAs (Decidable (link.src = s ∧ chainFrom link.dst rest d))

/-- There is a directed walk of length `n` from `src` to `v` using only
registered links. -/
def ReachN (links : List Link) (src v : String) (n : ℕ) : Prop :=
  ∃ ls : List Link, (∀ l ∈ ls, l ∈ links) ∧ chainFrom src ls v ∧ ls.length = n

/-- Decrease measure for the BFS loop: queue length plus the number of
links departing from not-yet-visited nodes.  Every iteration pops one
queue entry and enqueues at most one node per link leaving the popped
(previously unvisited) node, so the measure strictly decreases. -/
def bfsPotential (links : List Link) (s : BfsState) : ℕ :=
  s.unvisited.length + links.countP (fun l => decide (l.src ∉ s.visited))

/-- Loop invariant of the BFS in `calculateShortestPath`, at the top of
the `while unvisited` loop. -/
structure BfsInv (links : List Link) (src : String) (s : BfsState) : Prop where
  nodupV : s.visited.Nodup
  nodupQ : s.unvisited.Nodup
  disj : ∀ v ∈ s.visited, v ∉ s.unvisited
  domD : ∀ v, (s.dist.lookup v).isSome ↔ (v ∈ s.visited ∨ v ∈ s.unvisited)
  distCorrect : ∀ v n, s.dist.lookup v = some n →
    ReachN links src v n ∧ ∀ m, ReachN links src v m → n ≤ m
  layer : ∃ k A B, s.unvisited = A ++ B ∧
    (∀ a ∈ A, s.dist.lookup a = some k) ∧
    (∀ b ∈ B, s.dist.lookup b = some (k + 1)) ∧
    (∀ v ∈ s.visited, ∃ j, j ≤ k ∧ s.dist.lookup v = some j) ∧
    (∀ v m, ReachN links src v m → m ≤ k → (s.dist.lookup v).isSome)
  closedV : ∀ l ∈ links, l.src ∈ s.visited → (s.dist.lookup l.dst).isSome
  prevOk : ∀ v n, v ≠ src → s.dist.lookup v = some n →
    ∃ u l, s.prev.lookup v = some u ∧ l ∈ links ∧ l.src = u ∧ l.dst = v ∧
      s.dist.lookup u = some (n - 1)

/-- Invariant inside the `for link in self.links` pass for the current
node `c` (already moved to `visited`, its distance being `k`); `rem` is
the suffix of links not yet processed. -/
structure BfsMidInv (links : List Link) (src c : String) (k : ℕ) (s : BfsState)
    (rem : List Link) : Prop where
  nodupV : s.visited.Nodup
  nodupQ : s.unvisited.Nodup
  disj : ∀ v ∈ s.visited, v ∉ s.unvisited
  domD : ∀ v, (s.dist.lookup v).isSome ↔ (v ∈ s.visited ∨ v ∈ s.unvisited)
  distCorrect : ∀ v n, s.dist.lookup v = some n →
    ReachN links src v n ∧ ∀ m, ReachN links src v m → n ≤ m
  distC : s.dist.lookup c = some k
  inV : c ∈ s.visited
  layerM : ∃ A B, s.unvisited = A ++ B ∧
    (∀ a ∈ A, s.dist.lookup a = some k) ∧
    (∀ b ∈ B, s.dist.lookup b = some (k + 1)) ∧
    (∀ v ∈ s.visited, ∃ j, j ≤ k ∧ s.dist.lookup v = some j) ∧
    (∀ v m, ReachN links src v m → m ≤ k → (s.dist.lookup v).isSome)
  closedOld : ∀ l ∈ links, l.src ∈ s.visited → l.src ≠ c →
    (s.dist.lookup l.dst).isSome
  closedC : ∀ l ∈ links, l.src = c → l ∉ rem → (s.dist.lookup l.dst).isSome
  prevOk : ∀ v n, v ≠ src → s.dist.lookup v = some n →
    ∃ u l, s.prev.lookup v = some u ∧ l ∈ links ∧ l.src = u ∧ l.dst = v ∧
      s.dist.lookup u = some (n - 1)

/-- The topology-construction calls of the external interface
(`addNode`, `addBridge`, `addLink`, `addBidirectionalLink`,
`addFlow`). -/
inductive AddOp where
  | node (id : String)
  | bridge (id : String)
  | link (src dst : String) (rate delay idleSlope : ℚ)
  | bidirectionalLink (src dst : String) (rate delay idleSlope : ℚ)
  | flow (f : Flow)
deriving DecidableEq

/-- Dispatch one construction call to the corresponding `Network`
method. -/
def applyAddOp (net : Network) : AddOp → Network
  | .node n => net.addNode n
  | .bridge b => net.addBridge b
  | .link s d r dl sl => net.addLink s d r dl sl
  | .bidirectionalLink s d r dl sl => net.addBidirectionalLink s d r dl sl
  | .flow f => net.addFlow f

/-- Run a sequence of construction calls. -/
def applyAddOps (net : Network) (ops : List AddOp) : Network :=
  ops.foldl applyAddOp net

/-- The identity targeted by a construction call is already present in
the registry (same node or bridge id, same ordered (src, dst) pair for
links and flows). -/
def AddOp.present (net : Network) : AddOp → Prop
  | .node n => n ∈ net.nodes
  | .bridge b => b ∈ net.bridges
  | .link s d _ _ _ => (net.getLink s d).isSome
  | .bidirectionalLink s d _ _ _ =>
    (net.getLink s d).isSome ∧ (net.getLink d s).isSome
  | .flow f => (net.getFlow f.src f.dst).isSome

/-- Registry invariant: at most one Link and at most one Flow per
ordered (src, dst) pair. -/
def RegistryInv (net : Network) : Prop :=
  net.links.Pairwise (fun l1 l2 => ¬(l1.src = l2.src ∧ l1.dst = l2.dst)) ∧
  net.flows.Pairwise (fun f1 f2 => ¬(f1.src = f2.src ∧ f1.dst = f2.dst))

instance registryInvDec (net : Network) : Decidable (RegistryInv net) := by
  unfold RegistryInv
  infer_instance

instance addOpPresentDec (net : Network) : (op : AddOp) → Decidable (op.present net)
  | .node n => inferInstanceAs (Decidable (n ∈ net.nodes))
  | .bridge b => inferInstanceAs (Decidable (b ∈ net.bridges))
  | .link s d _ _ _ => inferInstanceAs (Decidable ((net.getLink s d).isSome = true))
  | .bidirectionalLink s d _ _ _ =>
    inferInstanceAs (Decidable
      ((net.getLink s d).isSome = true ∧ (net.getLink d s).isSome = true))
  | .flow f => inferInstanceAs (Decidable ((net.getFlow f.src f.dst).isSome = true))

/-- Result dict with the seven algorithm keys in engine insertion order
and explicit values; both engine outputs have this shape. -/
def mkResults (x1 x2 x3 x4 x5 x6 x7 : ℚ) : ResultDict :=
  [("baStandard", x1),
   ("qStandardL3V1", x2),
   ("qStandardL3V2", x3),
   ("plenary100Mbit", x4),
   ("plenaryFasterMedia", x5),
   ("plenaryFasterMediaV2", x6),
   ("qStandardL3V3", x7)]

/-- Sum of one formula's queue-delay entries over a list of hops. -/
def qsum (a : NetworkLatencyAnalysis) (flow : Flow) (cmf : ℚ) (name : String)
    (ls : List Link) : ℚ :=
  (ls.map (fun l => dictGet (a.calculateQueueDelayForLink l flow cmf) name)).sum

/-- Number of hops in the list whose source node is a registered
bridge. -/
def bridgeCount (a : NetworkLatencyAnalysis) (ls : List Link) : ℕ :=
  ls.countP (fun l => decide (l.src ∈ a.network.bridges))

/-- Concrete calculator with the repository's default configuration:
100 Mbit/s, CMI 125 microseconds, 64/1526-byte frames, 96-bit IFG. -/
def calcA : CBSLatencyCalculator := mkCalculator 100000000 (1/8000) 64 1526 96

/-- Concrete link A -> B. -/
def linkAB : Link := ⟨"A", "B", 100000000, 0, 48832000⟩

/-- Concrete link B -> C. -/
def linkBC : Link := ⟨"B", "C", 100000000, 0, 48832000⟩

/-- Concrete link B -> A (a bridge-sourced link). -/
def linkBA : Link := ⟨"B", "A", 100000000, 0, 48832000⟩

/-- Network with a direct link A -> B but a bogus empty cached path for
the pair (A, B). -/
def netCexPath : Network := ⟨[], ["A", "B"], [linkAB], [], [⟨"A", "B", []⟩], 96⟩

/-- Two-hop network A -> B -> C with no cached paths. -/
def netReach : Network := ⟨["B"], ["A", "C"], [linkAB, linkBC], [], [], 96⟩

/-- Concrete flow from A to C (750-byte frames). -/
def flowAC : Flow := ⟨"A", "C", 750, 1, 1/8000, 6⟩

/-- Concrete flow record from C to A, for which no path is cached. -/
def flowCA : Flow := ⟨"C", "A", 750, 1, 1/8000, 6⟩

/-- Cached two-link path from A to C. -/
def pathAC : Path := ⟨"A", "C", [linkAB, linkBC]⟩

/-- Two-hop network with flow and cached path registered. -/
def netE2E : Network := ⟨["B"], ["A", "C"], [linkAB, linkBC], [flowAC], [pathAC], 96⟩

/-- Orchestrator over `netE2E` with the default calculator and an
8-microsecond switch delay. -/
def anaE2E : NetworkLatencyAnalysis :=
  ⟨netE2E, calcA, 100000000, 1/8000, 8/1000000, 96⟩

/-- Network with a registered bridge-sourced link and no flows. -/
def netNoFlows : Network := ⟨["B"], ["A"], [linkBA], [], [], 96⟩

/-- Orchestrator over `netNoFlows`. -/
def anaNoFlows : NetworkLatencyAnalysis :=
  ⟨netNoFlows, calcA, 100000000, 1/8000, 0, 96⟩

/-- For positive idle slope and link speed the Standard-BA bound has the
closed form `ctMaxFrame/L + max 0 (CMI - smf/i) + (smf - IFG)/L`. -/
theorem baStandard_closed_form (c : CBSLatencyCalculator) (i smf : ℚ)
    (hi : 0 < i) (hL : 0 < c.LINKSPEED) :
    c.baStandard i smf =
      c.ctMaxFrame / c.LINKSPEED + max 0 (c.CMI - smf / i)
        + (smf - c.IFG) / c.LINKSPEED := by
  have hkey : (i * c.CMI / c.LINKSPEED - smf / c.LINKSPEED) * c.LINKSPEED / i =
      c.CMI - smf / i := by
    field_simp
    ring
  simp only [CBSLatencyCalculator.baStandard, hkey]
  rcases lt_or_le (c.CMI - smf / i) 0 with h | h
  · rw [if_pos h, max_eq_left h.le]
  · rw [if_neg (not_lt.mpr h), max_eq_right h]

/-- C3: for every `idleSlope > 0` and every `streamMaxFrame`,
`baStandard` equals
`ctMaxFrame/linkspeed + max(0, (idleSlope*CMI/linkspeed -
streamMaxFrame/linkspeed)*linkspeed/idleSlope) +
(streamMaxFrame - IFG)/linkspeed`, and when the catch-up term
`(idleSlope*CMI - streamMaxFrame)/idleSlope` is negative it is clamped
to zero. -/
theorem baStandard_spec (c : CBSLatencyCalculator) (idleSlope streamMaxFrame : ℚ)
    (hpos : 0 < idleSlope) :
    c.baStandard idleSlope streamMaxFrame =
      c.ctMaxFrame / c.LINKSPEED
        + max 0 ((idleSlope * c.CMI / c.LINKSPEED
            - streamMaxFrame / c.LINKSPEED) * c.LINKSPEED / idleSlope)
        + (streamMaxFrame - c.IFG) / c.LINKSPEED ∧
    ((idleSlope * c.CMI - streamMaxFrame) / idleSlope < 0 →
      c.baStandard idleSlope streamMaxFrame =
        c.ctMaxFrame / c.LINKSPEED + (streamMaxFrame - c.IFG) / c.LINKSPEED) := by
  constructor
  · simp only [CBSLatencyCalculator.baStandard]
    rcases lt_or_le ((idleSlope * c.CMI / c.LINKSPEED
        - streamMaxFrame / c.LINKSPEED) * c.LINKSPEED / idleSlope) 0 with h | h
    · rw [if_pos h, max_eq_left h.le]
    · rw [if_neg (not_lt.mpr h), max_eq_right h]
  · intro hneg
    by_cases hL : c.LINKSPEED = 0
    · simp only [CBSLatencyCalculator.baStandard, hL, div_zero, zero_sub, zero_mul,
        zero_div, neg_zero, lt_irrefl, if_false, add_zero, zero_add, sub_zero]
    · have hkey : (idleSlope * c.CMI / c.LINKSPEED
          - streamMaxFrame / c.LINKSPEED) * c.LINKSPEED / idleSlope =
          (idleSlope * c.CMI - streamMaxFrame) / idleSlope := by
        field_simp
      simp only [CBSLatencyCalculator.baStandard, hkey, if_pos hneg, add_zero]

/-- C3 witness at the default calculator, idle slope 48832000 bit/s and
a 6096-bit stream frame. -/
theorem baStandard_spec_witness :
    (0:ℚ) < 48832000 ∧
    (calcA.baStandard 48832000 6096 =
      calcA.ctMaxFrame / calcA.LINKSPEED
        + max 0 ((48832000 * calcA.CMI / calcA.LINKSPEED
            - 6096 / calcA.LINKSPEED) * calcA.LINKSPEED / 48832000)
        + (6096 - calcA.IFG) / calcA.LINKSPEED ∧
    ((48832000 * calcA.CMI - 6096) / 48832000 < 0 →
      calcA.baStandard 48832000 6096 =
        calcA.ctMaxFrame / calcA.LINKSPEED + (6096 - calcA.IFG) / calcA.LINKSPEED)) :=
  ⟨by norm_num, baStandard_spec calcA 48832000 6096 (by norm_num)⟩

/-- C4 counterexample: at the default calculator with stream max frame
6096 bits, raising the idle slope from 48832000 to 60000000 strictly
increases both the Standard-BA and the Plenary-FasterMedia-v2 delay,
contradicting the claimed strict decrease. -/
theorem idleSlope_increase_cex :
    calcA.baStandard 48832000 6096 < calcA.baStandard 60000000 6096 ∧
    calcA.plenaryFasterMediaV2 48832000 6096 <
      calcA.plenaryFasterMediaV2 60000000 6096 := by
  constructor
  · norm_num [CBSLatencyCalculator.baStandard, calcA, mkCalculator]
  · norm_num [CBSLatencyCalculator.plenaryFasterMediaV2,
      CBSLatencyCalculator.getMaxReservedPlenary, calcA, mkCalculator]

/-- C4 amended: for fixed other parameters with positive link speed and
positive stream max frame, `baStandard` is nondecreasing in the idle
slope: the two values are equal whenever `CMI * s2 <= streamMaxFrame`
(both catch-up terms clamped to zero) and strictly ordered upward
whenever `streamMaxFrame < CMI * s2`. -/
theorem baStandard_mono_idleSlope (c : CBSLatencyCalculator) (smf s1 s2 : ℚ)
    (h1 : 0 < s1) (h12 : s1 < s2) (hL : 0 < c.LINKSPEED) (hsmf : 0 < smf) :
    c.baStandard s1 smf ≤ c.baStandard s2 smf ∧
    (c.CMI * s2 ≤ smf → c.baStandard s1 smf = c.baStandard s2 smf) ∧
    (smf < c.CMI * s2 → c.baStandard s1 smf < c.baStandard s2 smf) := by
  have h2 : 0 < s2 := h1.trans h12
  rw [baStandard_closed_form c s1 smf h1 hL, baStandard_closed_form c s2 smf h2 hL]
  have hdiv : smf / s2 < smf / s1 := div_lt_div_of_pos_left hsmf h1 h12
  refine ⟨?_, ?_, ?_⟩
  · have : max 0 (c.CMI - smf / s1) ≤ max 0 (c.CMI - smf / s2) :=
      max_le_max le_rfl (by linarith)
    linarith
  · intro hclamp
    have hs2 : c.CMI - smf / s2 ≤ 0 := by
      have : c.CMI ≤ smf / s2 := (le_div_iff₀ h2).mpr hclamp
      linarith
    have hs1 : c.CMI - smf / s1 ≤ 0 := by linarith
    rw [max_eq_left hs1, max_eq_left hs2]
  · intro hstrict
    have hs2 : 0 < c.CMI - smf / s2 := by
      have : smf / s2 < c.CMI := (div_lt_iff₀ h2).mpr (by linarith)
      linarith
    have : max 0 (c.CMI - smf / s1) < max 0 (c.CMI - smf / s2) := by
      rw [max_eq_right hs2.le]
      exact max_lt hs2 (by linarith)
    linarith

/-- C4 amended witness at the default calculator. -/
theorem baStandard_mono_idleSlope_witness :
    (0:ℚ) < 48832000 ∧ (48832000:ℚ) < 60000000 ∧ (0:ℚ) < calcA.LINKSPEED ∧
    (0:ℚ) < 6096 ∧
    (calcA.baStandard 48832000 6096 ≤ calcA.baStandard 60000000 6096 ∧
     (calcA.CMI * 60000000 ≤ 6096 →
       calcA.baStandard 48832000 6096 = calcA.baStandard 60000000 6096) ∧
     (6096 < calcA.CMI * 60000000 →
       calcA.baStandard 48832000 6096 < calcA.baStandard 60000000 6096)) :=
  ⟨by norm_num, by norm_num, by norm_num [calcA, mkCalculator], by norm_num,
    baStandard_mono_idleSlope calcA 6096 48832000 60000000 (by norm_num)
      (by norm_num) (by norm_num [calcA, mkCalculator]) (by norm_num)⟩

/-- C6 counterexample: with zero input links the intermediate count `N`
of `plenary100Mbit` is negative, so the `min(...)` does not clamp it to
be non-negative. -/
theorem plenary100MbitN_negative_cex :
    calcA.plenary100MbitN 48832000 6096 0 < 0 := by
  norm_num [CBSLatencyCalculator.plenary100MbitN,
    CBSLatencyCalculator.getMaxReservedPlenary, calcA, mkCalculator]

/-- C6 amended: the `min(...)` does not make `N` non-negative, but
whenever `N <= 0` the `if N > 0` guard adds no extra competing packets
and `plenary100Mbit` returns
`(ctMaxFrame + streamMaxFrame) / linkspeed`. -/
theorem plenary100Mbit_no_extra_packets (c : CBSLatencyCalculator)
    (idleSlope streamMaxFrame : ℚ) (nrInputLinks : ℤ)
    (hN : c.plenary100MbitN idleSlope streamMaxFrame nrInputLinks ≤ 0) :
    c.plenary100Mbit idleSlope streamMaxFrame nrInputLinks =
      (c.ctMaxFrame + streamMaxFrame) / c.LINKSPEED := by
  simp only [CBSLatencyCalculator.plenary100Mbit, if_neg (not_lt.mpr hN), add_zero]

/-- C6 amended witness: zero input links at the default calculator. -/
theorem plenary100Mbit_no_extra_packets_witness :
    calcA.plenary100MbitN 48832000 6096 0 ≤ 0 ∧
    calcA.plenary100Mbit 48832000 6096 0 =
      (calcA.ctMaxFrame + 6096) / calcA.LINKSPEED :=
  ⟨by norm_num [CBSLatencyCalculator.plenary100MbitN,
      CBSLatencyCalculator.getMaxReservedPlenary, calcA, mkCalculator],
    plenary100Mbit_no_extra_packets calcA 48832000 6096 0
      (by norm_num [CBSLatencyCalculator.plenary100MbitN,
        CBSLatencyCalculator.getMaxReservedPlenary, calcA, mkCalculator])⟩

/-- The seven algorithm names, in engine insertion order. -/
theorem getEmptyResultDict_keys :
    getEmptyResultDict.map Prod.fst =
      ["baStandard", "qStandardL3V1", "qStandardL3V2", "plenary100Mbit",
       "plenaryFasterMedia", "plenaryFasterMediaV2", "qStandardL3V3"] := rfl

/-- C5: `runAlgorithmsForPort` returns exactly the seven algorithm keys
(the key set of `getEmptyResultDict`, whose values are all zero), its
`qStandardL3V2` entry is `qStandardL3V2` applied to the input idle
slopes sorted ascending, and its `qStandardL3V3` entry is
`qStandardL3V2` applied to the same slopes sorted descending. -/
theorem runAlgorithmsForPort_spec (c : CBSLatencyCalculator)
    (idleSlope streamMaxFrame classMaxFrame : ℚ) (nrInputLinks : ℤ)
    (inputIdleSlopes lUp lDown : List ℚ)
    (hupP : lUp.Perm inputIdleSlopes) (hupS : lUp.Sorted (· ≤ ·))
    (hdownP : lDown.Perm inputIdleSlopes) (hdownS : lDown.Sorted (· ≥ ·)) :
    (c.runAlgorithmsForPort idleSlope streamMaxFrame classMaxFrame nrInputLinks
        inputIdleSlopes).map Prod.fst = getEmptyResultDict.map Prod.fst ∧
    (∀ p ∈ getEmptyResultDict, p.2 = 0) ∧
    dictGet (c.runAlgorithmsForPort idleSlope streamMaxFrame classMaxFrame
        nrInputLinks inputIdleSlopes) "qStandardL3V2" =
      c.qStandardL3V2 idleSlope classMaxFrame lUp ∧
    dictGet (c.runAlgorithmsForPort idleSlope streamMaxFrame classMaxFrame
        nrInputLinks inputIdleSlopes) "qStandardL3V3" =
      c.qStandardL3V2 idleSlope classMaxFrame lDown := by
  have hup : lUp = inputIdleSlopes.insertionSort (fun a b => a ≤ b) :=
    List.eq_of_perm_of_sorted
      (hupP.trans (List.perm_insertionSort _ inputIdleSlopes).symm) hupS
      (List.sorted_insertionSort _ inputIdleSlopes)
  have hdown : lDown = (inputIdleSlopes.insertionSort (fun a b => a ≤ b)).reverse := by
    have h1 : lDown.reverse = inputIdleSlopes.insertionSort (fun a b => a ≤ b) := by
      refine List.eq_of_perm_of_sorted
        ((lDown.reverse_perm.trans hdownP).trans
          (List.perm_insertionSort _ inputIdleSlopes).symm) ?_
        (List.sorted_insertionSort _ inputIdleSlopes)
      simpa [List.Sorted, List.pairwise_reverse] using hdownS
    rw [← h1, List.reverse_reverse]
  refine ⟨rfl, ?_, ?_, ?_⟩
  · intro p hp
    simp only [getEmptyResultDict, List.mem_cons, List.not_mem_nil, or_false] at hp
    rcases hp with h | h | h | h | h | h | h <;> subst h <;> rfl
  · rw [hup]; rfl
  · rw [hdown]; rfl

/-- C5 witness: concrete slope list `[2, 1]` with its ascending and
descending sortings. -/
theorem runAlgorithmsForPort_spec_witness :
    ([(1:ℚ), 2].Perm [2, 1]) ∧ ([(1:ℚ), 2].Sorted (· ≤ ·)) ∧
    ([(2:ℚ), 1].Perm [2, 1]) ∧ ([(2:ℚ), 1].Sorted (· ≥ ·)) ∧
    ((calcA.runAlgorithmsForPort 48832000 6096 12304 1 [2, 1]).map Prod.fst =
        getEmptyResultDict.map Prod.fst ∧
      (∀ p ∈ getEmptyResultDict, p.2 = 0) ∧
      dictGet (calcA.runAlgorithmsForPort 48832000 6096 12304 1 [2, 1])
          "qStandardL3V2" = calcA.qStandardL3V2 48832000 12304 [1, 2] ∧
      dictGet (calcA.runAlgorithmsForPort 48832000 6096 12304 1 [2, 1])
          "qStandardL3V3" = calcA.qStandardL3V2 48832000 12304 [2, 1]) :=
  ⟨List.Perm.swap 2 1 [], by norm_num [List.sorted_cons],
    List.Perm.refl _, by norm_num [List.sorted_cons],
    runAlgorithmsForPort_spec calcA 48832000 6096 12304 1 [2, 1] [1, 2] [2, 1]
      (List.Perm.swap 2 1 []) (by norm_num [List.sorted_cons])
      (List.Perm.refl _) (by norm_num [List.sorted_cons])⟩

/-- C7 counterexample: in a network with no registered flows, a
queue-delay query for a registered bridge-sourced link is not all
zeros: its `plenaryFasterMedia` entry is `CMI + ctMaxFrame/linkspeed`,
which is nonzero. -/
theorem zero_flow_query_nonzero_cex :
    dictGet (anaNoFlows.calculateQueueDelayForLink linkBA flowCA (-1))
      "plenaryFasterMedia" ≠ 0 := by
  have h : dictGet (anaNoFlows.calculateQueueDelayForLink linkBA flowCA (-1))
      "plenaryFasterMedia" = calcA.plenaryFasterMedia := rfl
  rw [h]
  norm_num [CBSLatencyCalculator.plenaryFasterMedia, calcA, mkCalculator]

/-- C7 amended: with an empty flow registry `findClassMaxFrame` returns
0, and a queue-delay query returns the all-zero map whenever the link's
source is a registered end node; bridge-sourced links instead receive
the full formula results (with the class max frame defaulting to the
IFG), which are in general nonzero. -/
theorem zero_flow_network_spec (a : NetworkLatencyAnalysis) (link : Link)
    (flow : Flow) (classMaxFrame : ℚ) :
    (a.network.flows = [] → a.network.findClassMaxFrame = 0) ∧
    (link.src ∈ a.network.nodes →
      a.calculateQueueDelayForLink link flow classMaxFrame = getEmptyResultDict) := by
  constructor
  · intro h
    simp [Network.findClassMaxFrame, h]
  · intro h
    simp [NetworkLatencyAnalysis.calculateQueueDelayForLink, h]

/-- C7 amended witness: the zero-flow network `netNoFlows` with the
node-sourced link A -> B. -/
theorem zero_flow_network_spec_witness :
    anaNoFlows.network.findClassMaxFrame = 0 ∧
    anaNoFlows.calculateQueueDelayForLink linkAB flowCA (-1) =
      getEmptyResultDict :=
  ⟨(zero_flow_network_spec anaNoFlows linkAB flowCA (-1)).1 rfl,
    (zero_flow_network_spec anaNoFlows linkAB flowCA (-1)).2 (by decide)⟩

/-- Helper: `addLink` preserves uniqueness of links per ordered pair
and does not touch flows. -/
theorem addLink_preserves_inv (net : Network) (s d : String) (r dl sl : ℚ)
    (h : RegistryInv net) : RegistryInv (net.addLink s d r dl sl) := by
  obtain ⟨hl, hf⟩ := h
  unfold Network.addLink
  split
  · exact ⟨hl, hf⟩
  · rename_i hnone
    refine ⟨?_, hf⟩
    rw [List.pairwise_append]
    refine ⟨hl, List.pairwise_singleton _ _, ?_⟩
    intro l1 hl1 l2 hl2
    simp only [List.mem_singleton] at hl2
    subst hl2
    rintro ⟨h1, h2⟩
    apply hnone
    simp only [Network.getLink, List.find?_isSome]
    exact ⟨l1, hl1, by simp [Link.isLinkFor] at h1 h2 ⊢; exact ⟨h1, h2⟩⟩

/-- Helper: `addFlow` preserves uniqueness of flows per ordered pair
and does not touch links. -/
theorem addFlow_preserves_inv (net : Network) (f : Flow)
    (h : RegistryInv net) : RegistryInv (net.addFlow f) := by
  obtain ⟨hl, hf⟩ := h
  unfold Network.addFlow
  split
  · exact ⟨hl, hf⟩
  · rename_i hnone
    refine ⟨hl, ?_⟩
    rw [List.pairwise_append]
    refine ⟨hf, List.pairwise_singleton _ _, ?_⟩
    intro f1 hf1 f2 hf2
    simp only [List.mem_singleton] at hf2
    subst hf2
    rintro ⟨h1, h2⟩
    apply hnone
    simp only [Network.getFlow, List.find?_isSome]
    exact ⟨f1, hf1, by simp [h1, h2]⟩

/-- Helper: every single construction call preserves the registry
invariant. -/
theorem applyAddOp_preserves_inv (net : Network) (op : AddOp)
    (h : RegistryInv net) : RegistryInv (applyAddOp net op) := by
  cases op with
  | node n =>
    simp only [applyAddOp, Network.addNode]
    split <;> exact h
  | bridge b =>
    simp only [applyAddOp, Network.addBridge]
    split <;> exact h
  | link s d r dl sl => exact addLink_preserves_inv net s d r dl sl h
  | bidirectionalLink s d r dl sl =>
    exact addLink_preserves_inv _ d s r dl sl (addLink_preserves_inv net s d r dl sl h)
  | flow f => exact addFlow_preserves_inv net f h

/-- C9: every sequence of `addNode` / `addBridge` / `addLink` /
`addBidirectionalLink` / `addFlow` calls preserves the invariant that
there is at most one Link and at most one Flow per ordered (src, dst)
pair, and any such call whose identity is already present leaves the
registry unchanged. -/
theorem registry_invariant_and_idempotence (net : Network) (ops : List AddOp)
    (op : AddOp) :
    (RegistryInv net → RegistryInv (applyAddOps net ops)) ∧
    (op.present net → applyAddOp net op = net) := by
  constructor
  · intro h
    induction ops generalizing net with
    | nil => exact h
    | cons o rest ih => exact ih _ (applyAddOp_preserves_inv net o h)
  · intro hp
    cases op with
    | node n =>
      simp only [AddOp.present] at hp
      simp [applyAddOp, Network.addNode, hp]
    | bridge b =>
      simp only [AddOp.present] at hp
      simp [applyAddOp, Network.addBridge, hp]
    | link s d r dl sl =>
      simp only [AddOp.present] at hp
      simp [applyAddOp, Network.addLink, hp]
    | bidirectionalLink s d r dl sl =>
      simp only [AddOp.present] at hp
      simp [applyAddOp, Network.addBidirectionalLink, Network.addLink, hp.1, hp.2]
    | flow f =>
      simp only [AddOp.present] at hp
      simp [applyAddOp, Network.addFlow, hp]

/-- C9 witness: a concrete call sequence on `netE2E` and a repeated
link insertion for the already-present pair (A, B). -/
theorem registry_invariant_and_idempotence_witness :
    RegistryInv (applyAddOps netE2E
      [AddOp.node "A", AddOp.bridge "X", AddOp.link "A" "D" 1 2 3,
       AddOp.bidirectionalLink "C" "E" 1 2 3, AddOp.flow ⟨"A", "B", 1, 1, 1, 0⟩]) ∧
    applyAddOp netE2E (AddOp.link "A" "B" 1 2 3) = netE2E :=
  ⟨(registry_invariant_and_idempotence netE2E
      [AddOp.node "A", AddOp.bridge "X", AddOp.link "A" "D" 1 2 3,
       AddOp.bidirectionalLink "C" "E" 1 2 3, AddOp.flow ⟨"A", "B", 1, 1, 1, 0⟩]
      (AddOp.link "A" "B" 1 2 3)).1 (by decide),
   (registry_invariant_and_idempotence netE2E [] (AddOp.link "A" "B" 1 2 3)).2
      (by decide)⟩

/-- C8: when no path is cached for the flow's (src, dst) pair,
`calculateEndToEndDelayForFlow` returns the all-zero result map (the
embedding is a total function of the analysis state, so no exception is
raised and no state is written). -/
theorem e2e_no_path_all_zero (a : NetworkLatencyAnalysis) (flow : Flow)
    (h : a.network.lookupPath flow.src flow.dst = none) :
    a.calculateEndToEndDelayForFlow flow = getEmptyResultDict := by
  simp only [NetworkLatencyAnalysis.calculateEndToEndDelayForFlow, h]

/-- C8 witness: the flow record from C to A has no cached path in
`anaE2E`. -/
theorem e2e_no_path_all_zero_witness :
    anaE2E.network.lookupPath flowCA.src flowCA.dst = none ∧
    anaE2E.calculateEndToEndDelayForFlow flowCA = getEmptyResultDict :=
  ⟨rfl, e2e_no_path_all_zero anaE2E flowCA rfl⟩

/-- The empty result dict in `mkResults` form. -/
theorem getEmptyResultDict_eq_mk : getEmptyResultDict = mkResults 0 0 0 0 0 0 0 := rfl

/-- Reading the first key of a `mkResults` dict. -/
theorem dictGet_mk_1 (x1 x2 x3 x4 x5 x6 x7 : ℚ) :
    dictGet (mkResults x1 x2 x3 x4 x5 x6 x7) "baStandard" = x1 := rfl

/-- Reading the second key of a `mkResults` dict. -/
theorem dictGet_mk_2 (x1 x2 x3 x4 x5 x6 x7 : ℚ) :
    dictGet (mkResults x1 x2 x3 x4 x5 x6 x7) "qStandardL3V1" = x2 := rfl

/-- Reading the third key of a `mkResults` dict. -/
theorem dictGet_mk_3 (x1 x2 x3 x4 x5 x6 x7 : ℚ) :
    dictGet (mkResults x1 x2 x3 x4 x5 x6 x7) "qStandardL3V2" = x3 := rfl

/-- Reading the fourth key of a `mkResults` dict. -/
theorem dictGet_mk_4 (x1 x2 x3 x4 x5 x6 x7 : ℚ) :
    dictGet (mkResults x1 x2 x3 x4 x5 x6 x7) "plenary100Mbit" = x4 := rfl

/-- Reading the fifth key of a `mkResults` dict. -/
theorem dictGet_mk_5 (x1 x2 x3 x4 x5 x6 x7 : ℚ) :
    dictGet (mkResults x1 x2 x3 x4 x5 x6 x7) "plenaryFasterMedia" = x5 := rfl

/-- Reading the sixth key of a `mkResults` dict. -/
theorem dictGet_mk_6 (x1 x2 x3 x4 x5 x6 x7 : ℚ) :
    dictGet (mkResults x1 x2 x3 x4 x5 x6 x7) "plenaryFasterMediaV2" = x6 := rfl

/-- Reading the seventh key of a `mkResults` dict. -/
theorem dictGet_mk_7 (x1 x2 x3 x4 x5 x6 x7 : ℚ) :
    dictGet (mkResults x1 x2 x3 x4 x5 x6 x7) "qStandardL3V3" = x7 := rfl

/-- The key list of a `mkResults` dict. -/
theorem mkResults_keys (x1 x2 x3 x4 x5 x6 x7 : ℚ) :
    (mkResults x1 x2 x3 x4 x5 x6 x7).map Prod.fst =
      ["baStandard", "qStandardL3V1", "qStandardL3V2", "plenary100Mbit",
       "plenaryFasterMedia", "plenaryFasterMediaV2", "qStandardL3V3"] := rfl

/-- Writing the first key of a `mkResults` dict. -/
theorem dictSet_mk_1 (x1 x2 x3 x4 x5 x6 x7 v : ℚ) :
    dictSet (mkResults x1 x2 x3 x4 x5 x6 x7) "baStandard" v =
      mkResults v x2 x3 x4 x5 x6 x7 := rfl

/-- Writing the second key of a `mkResults` dict. -/
theorem dictSet_mk_2 (x1 x2 x3 x4 x5 x6 x7 v : ℚ) :
    dictSet (mkResults x1 x2 x3 x4 x5 x6 x7) "qStandardL3V1" v =
      mkResults x1 v x3 x4 x5 x6 x7 := rfl

/-- Writing the third key of a `mkResults` dict. -/
theorem dictSet_mk_3 (x1 x2 x3 x4 x5 x6 x7 v : ℚ) :
    dictSet (mkResults x1 x2 x3 x4 x5 x6 x7) "qStandardL3V2" v =
      mkResults x1 x2 v x4 x5 x6 x7 := rfl

/-- Writing the fourth key of a `mkResults` dict. -/
theorem dictSet_mk_4 (x1 x2 x3 x4 x5 x6 x7 v : ℚ) :
    dictSet (mkResults x1 x2 x3 x4 x5 x6 x7) "plenary100Mbit" v =
      mkResults x1 x2 x3 v x5 x6 x7 := rfl

/-- Writing the fifth key of a `mkResults` dict. -/
theorem dictSet_mk_5 (x1 x2 x3 x4 x5 x6 x7 v : ℚ) :
    dictSet (mkResults x1 x2 x3 x4 x5 x6 x7) "plenaryFasterMedia" v =
      mkResults x1 x2 x3 x4 v x6 x7 := rfl

/-- Writing the sixth key of a `mkResults` dict. -/
theorem dictSet_mk_6 (x1 x2 x3 x4 x5 x6 x7 v : ℚ) :
    dictSet (mkResults x1 x2 x3 x4 x5 x6 x7) "plenaryFasterMediaV2" v =
      mkResults x1 x2 x3 x4 x5 v x7 := rfl

/-- Writing the seventh key of a `mkResults` dict. -/
theorem dictSet_mk_7 (x1 x2 x3 x4 x5 x6 x7 v : ℚ) :
    dictSet (mkResults x1 x2 x3 x4 x5 x6 x7) "qStandardL3V3" v =
      mkResults x1 x2 x3 x4 x5 x6 v := rfl

/-- Componentwise congruence for `mkResults`. -/
theorem mkResults_congr {x1 x2 x3 x4 x5 x6 x7 y1 y2 y3 y4 y5 y6 y7 : ℚ}
    (h1 : x1 = y1) (h2 : x2 = y2) (h3 : x3 = y3) (h4 : x4 = y4) (h5 : x5 = y5)
    (h6 : x6 = y6) (h7 : x7 = y7) :
    mkResults x1 x2 x3 x4 x5 x6 x7 = mkResults y1 y2 y3 y4 y5 y6 y7 := by
  subst h1 h2 h3 h4 h5 h6 h7
  rfl

/-- Both branches of `calculateQueueDelayForLink` produce a dict of the
seven-key `mkResults` shape. -/
theorem calculateQueueDelayForLink_shape (a : NetworkLatencyAnalysis)
    (link : Link) (flow : Flow) (cmf : ℚ) :
    ∃ y1 y2 y3 y4 y5 y6 y7,
      a.calculateQueueDelayForLink link flow cmf = mkResults y1 y2 y3 y4 y5 y6 y7 := by
  unfold NetworkLatencyAnalysis.calculateQueueDelayForLink
  split
  · exact ⟨0, 0, 0, 0, 0, 0, 0, rfl⟩
  · exact ⟨_, _, _, _, _, _, _, rfl⟩

/-- One pass of the inner accumulation loop on dicts in `mkResults`
form: every entry gains the queue delay plus the transmission delay,
plus the switch delay when the hop leaves a bridge. -/
theorem e2eAccumulate_mk (a : NetworkLatencyAnalysis) (td : ℚ) (link : Link)
    (x1 x2 x3 x4 x5 x6 x7 y1 y2 y3 y4 y5 y6 y7 : ℚ) :
    a.e2eAccumulate td link (mkResults x1 x2 x3 x4 x5 x6 x7)
        (mkResults y1 y2 y3 y4 y5 y6 y7) =
      if link.src ∈ a.network.bridges then
        mkResults (x1 + y1 + td + a.switchDelay) (x2 + y2 + td + a.switchDelay)
          (x3 + y3 + td + a.switchDelay) (x4 + y4 + td + a.switchDelay)
          (x5 + y5 + td + a.switchDelay) (x6 + y6 + td + a.switchDelay)
          (x7 + y7 + td + a.switchDelay)
      else
        mkResults (x1 + y1 + td) (x2 + y2 + td) (x3 + y3 + td) (x4 + y4 + td)
          (x5 + y5 + td) (x6 + y6 + td) (x7 + y7 + td) := by
  by_cases hb : link.src ∈ a.network.bridges <;>
    simp only [NetworkLatencyAnalysis.e2eAccumulate, mkResults_keys, hb,
      if_true, if_false, ite_true, ite_false, List.foldl_cons, List.foldl_nil,
      dictGet_mk_1, dictGet_mk_2, dictGet_mk_3, dictGet_mk_4, dictGet_mk_5,
      dictGet_mk_6, dictGet_mk_7, dictSet_mk_1, dictSet_mk_2, dictSet_mk_3,
      dictSet_mk_4, dictSet_mk_5, dictSet_mk_6, dictSet_mk_7]

/-- Characterization of the per-hop fold of
`calculateEndToEndDelayForFlow` on an accumulator in `mkResults`
form. -/
theorem e2e_foldl_mk (a : NetworkLatencyAnalysis) (flow : Flow) (cmf td : ℚ) :
    ∀ (ls : List Link) (x1 x2 x3 x4 x5 x6 x7 : ℚ),
      ls.foldl (fun fd link => a.e2eAccumulate td link fd
          (a.calculateQueueDelayForLink link flow cmf))
        (mkResults x1 x2 x3 x4 x5 x6 x7) =
      mkResults
        (x1 + qsum a flow cmf "baStandard" ls + ls.length * td
          + a.switchDelay * bridgeCount a ls)
        (x2 + qsum a flow cmf "qStandardL3V1" ls + ls.length * td
          + a.switchDelay * bridgeCount a ls)
        (x3 + qsum a flow cmf "qStandardL3V2" ls + ls.length * td
          + a.switchDelay * bridgeCount a ls)
        (x4 + qsum a flow cmf "plenary100Mbit" ls + ls.length * td
          + a.switchDelay * bridgeCount a ls)
        (x5 + qsum a flow cmf "plenaryFasterMedia" ls + ls.length * td
          + a.switchDelay * bridgeCount a ls)
        (x6 + qsum a flow cmf "plenaryFasterMediaV2" ls + ls.length * td
          + a.switchDelay * bridgeCount a ls)
        (x7 + qsum a flow cmf "qStandardL3V3" ls + ls.length * td
          + a.switchDelay * bridgeCount a ls) := by
  intro ls
  induction ls with
  | nil =>
    intro x1 x2 x3 x4 x5 x6 x7
    apply mkResults_congr <;>
      simp [qsum, bridgeCount]
  | cons l rest ih =>
    intro x1 x2 x3 x4 x5 x6 x7
    rw [List.foldl_cons]
    obtain ⟨y1, y2, y3, y4, y5, y6, y7, hy⟩ :=
      calculateQueueDelayForLink_shape a l flow cmf
    rw [hy, e2eAccumulate_mk]
    by_cases hb : l.src ∈ a.network.bridges
    · rw [if_pos hb, ih]
      apply mkResults_congr <;>
        · simp only [qsum, bridgeCount, List.map_cons, List.sum_cons, hy,
            List.countP_cons, List.length_cons, hb, decide_True, eq_self_iff_true, if_true,
            dictGet_mk_1, dictGet_mk_2, dictGet_mk_3, dictGet_mk_4,
            dictGet_mk_5, dictGet_mk_6, dictGet_mk_7]
          push_cast
          ring
    · rw [if_neg hb, ih]
      apply mkResults_congr <;>
        · simp only [qsum, bridgeCount, List.map_cons, List.sum_cons, hy,
            List.countP_cons, List.length_cons, hb, decide_False, eq_self_iff_true, if_true, if_false,
            dictGet_mk_1, dictGet_mk_2, dictGet_mk_3, dictGet_mk_4,
            dictGet_mk_5, dictGet_mk_6, dictGet_mk_7]
          push_cast
          ring

/-- C2: for a flow with a cached path of `k` links, every one of the
seven formula entries of `calculateEndToEndDelayForFlow` equals the sum
of that formula's per-link queue delays over the `k` links, plus `k`
times the transmission delay `(flow.size*8 + IFG)/linkspeed`, plus the
switch delay once per link whose source is a registered bridge. -/
theorem e2e_aggregation (a : NetworkLatencyAnalysis) (flow : Flow) (p : Path)
    (hpath : a.network.lookupPath flow.src flow.dst = some p) :
    ∀ name ∈ getEmptyResultDict.map Prod.fst,
      dictGet (a.calculateEndToEndDelayForFlow flow) name =
        (p.links.map (fun l => dictGet
            (a.calculateQueueDelayForLink l flow
              (a.network.findClassMaxFrame * 8 + a.ifg)) name)).sum
        + (p.links.length : ℚ) * ((flow.size * 8 + a.ifg) / a.linkspeed)
        + a.switchDelay *
            (p.links.countP (fun l => decide (l.src ∈ a.network.bridges)) : ℚ) := by
  intro name hname
  simp only [NetworkLatencyAnalysis.calculateEndToEndDelayForFlow, hpath,
    getEmptyResultDict_eq_mk]
  rw [e2e_foldl_mk]
  have hnames : getEmptyResultDict.map Prod.fst =
      ["baStandard", "qStandardL3V1", "qStandardL3V2", "plenary100Mbit",
       "plenaryFasterMedia", "plenaryFasterMediaV2", "qStandardL3V3"] := rfl
  rw [hnames] at hname
  simp only [List.mem_cons, List.not_mem_nil, or_false] at hname
  rcases hname with h | h | h | h | h | h | h <;> subst h
  · rw [dictGet_mk_1, zero_add]; rfl
  · rw [dictGet_mk_2, zero_add]; rfl
  · rw [dictGet_mk_3, zero_add]; rfl
  · rw [dictGet_mk_4, zero_add]; rfl
  · rw [dictGet_mk_5, zero_add]; rfl
  · rw [dictGet_mk_6, zero_add]; rfl
  · rw [dictGet_mk_7, zero_add]; rfl

/-- C2 witness: the two-hop flow A -> C of `anaE2E` with its cached
path. -/
theorem e2e_aggregation_witness :
    anaE2E.network.lookupPath flowAC.src flowAC.dst = some pathAC ∧
    (∀ name ∈ getEmptyResultDict.map Prod.fst,
      dictGet (anaE2E.calculateEndToEndDelayForFlow flowAC) name =
        (pathAC.links.map (fun l => dictGet
            (anaE2E.calculateQueueDelayForLink l flowAC
              (anaE2E.network.findClassMaxFrame * 8 + anaE2E.ifg)) name)).sum
        + (pathAC.links.length : ℚ)
            * ((flowAC.size * 8 + anaE2E.ifg) / anaE2E.linkspeed)
        + anaE2E.switchDelay *
            (pathAC.links.countP
              (fun l => decide (l.src ∈ anaE2E.network.bridges)) : ℚ)) :=
  ⟨rfl, e2e_aggregation anaE2E flowAC pathAC rfl⟩

/-- Generic association-list fact: reading the key just written. -/
theorem lookup_cons_same {β : Type} (k : String) (v : β) (es : List (String × β)) :
    List.lookup k ((k, v) :: es) = some v := by
  simp [List.lookup]

/-- Generic association-list fact: a fresh binding for another key does
not change a read. -/
theorem lookup_cons_ne {β : Type} {a k : String} (v : β) (es : List (String × β))
    (h : a ≠ k) : List.lookup a ((k, v) :: es) = List.lookup a es := by
  have hb : (a == k) = false := beq_false_of_ne h
  simp [List.lookup, hb]

/-- Splitting a walk at a list concatenation. -/
theorem chainFrom_append (l1 : List Link) :
    ∀ (l2 : List Link) (s d : String),
      chainFrom s (l1 ++ l2) d ↔ ∃ m, chainFrom s l1 m ∧ chainFrom m l2 d := by
  induction l1 with
  | nil =>
    intro l2 s d
    constructor
    · intro h
      exact ⟨s, rfl, h⟩
    · rintro ⟨m, hm, h⟩
      cases hm
      exact h
  | cons l rest ih =>
    intro l2 s d
    constructor
    · rintro ⟨hsrc, h⟩
      obtain ⟨m, h1, h2⟩ := (ih l2 l.dst d).mp h
      exact ⟨m, ⟨hsrc, h1⟩, h2⟩
    · rintro ⟨m, ⟨hsrc, h1⟩, h2⟩
      exact ⟨hsrc, (ih l2 l.dst d).mpr ⟨m, h1, h2⟩⟩

/-- Extending a walk by one link at the end. -/
theorem chainFrom_snoc {s m : String} {ls : List Link} {l : Link}
    (h : chainFrom s ls m) (hl : l.src = m) :
    chainFrom s (ls ++ [l]) l.dst :=
  (chainFrom_append ls [l] s l.dst).mpr ⟨m, h, hl, rfl⟩

/-- A zero-length walk stays at the source. -/
theorem reachN_zero_iff (links : List Link) (src v : String) :
    ReachN links src v 0 ↔ v = src := by
  constructor
  · rintro ⟨ls, _, hchain, hlen⟩
    rw [List.length_eq_zero] at hlen
    subst hlen
    exact hchain.symm
  · rintro rfl
    exact ⟨[], by simp, rfl, rfl⟩

/-- Walks extend along registered links. -/
theorem reachN_step {links : List Link} {src u : String} {n : ℕ}
    (h : ReachN links src u n) {l : Link} (hl : l ∈ links) (hsrc : l.src = u) :
    ReachN links src l.dst (n + 1) := by
  obtain ⟨ls, hmem, hchain, hlen⟩ := h
  refine ⟨ls ++ [l], ?_, chainFrom_snoc hchain hsrc, by simp [hlen]⟩
  intro x hx
  rcases List.mem_append.mp hx with h | h
  · exact hmem x h
  · simp only [List.mem_singleton] at h
    subst h
    exact hl

/-- A walk of positive length ends with a registered link from a node
one step closer to the source. -/
theorem reachN_succ {links : List Link} {src v : String} {n : ℕ}
    (h : ReachN links src v (n + 1)) :
    ∃ u l, ReachN links src u n ∧ l ∈ links ∧ l.src = u ∧ l.dst = v := by
  obtain ⟨ls, hmem, hchain, hlen⟩ := h
  rcases List.eq_nil_or_concat ls with rfl | ⟨init, last, rfl⟩
  · simp at hlen
  · rw [List.concat_eq_append] at hchain hlen hmem
    obtain ⟨m, h1, h2, h3⟩ := (chainFrom_append init [last] src v).mp hchain
    refine ⟨m, last, ⟨init, ?_, h1, ?_⟩, ?_, h2, h3⟩
    · intro x hx
      exact hmem x (List.mem_append_left _ hx)
    · simp only [List.length_append, List.length_singleton] at hlen
      omega
    · exact hmem last (by simp)

/-- A list that is not duplicate-free contains the same element at two
positions. -/
theorem exists_dup_split {α : Type} [DecidableEq α] :
    ∀ (ls : List α), ¬ ls.Nodup →
      ∃ xs x ys zs, ls = xs ++ (x :: (ys ++ (x :: zs))) := by
  intro ls
  induction ls with
  | nil => intro h; exact absurd List.nodup_nil h
  | cons a t ih =>
    intro h
    by_cases ha : a ∈ t
    · obtain ⟨ys, zs, rfl⟩ := List.append_of_mem ha
      exact ⟨[], a, ys, zs, rfl⟩
    · have : ¬ t.Nodup := by
        intro ht
        exact h (List.nodup_cons.mpr ⟨ha, ht⟩)
      obtain ⟨xs, x, ys, zs, rfl⟩ := ih this
      exact ⟨a :: xs, x, ys, zs, rfl⟩

/-- Cutting the segment between two occurrences of the same link keeps
a valid walk. -/
theorem chainFrom_cut {s d : String} {xs ys zs : List Link} {x : Link}
    (h : chainFrom s (xs ++ (x :: (ys ++ (x :: zs)))) d) :
    chainFrom s (xs ++ (x :: zs)) d := by
  obtain ⟨m1, h1, hx1, h2⟩ :=
    (chainFrom_append xs (x :: (ys ++ (x :: zs))) s d).mp h
  obtain ⟨m2, hys, hx2, h3⟩ := (chainFrom_append ys (x :: zs) x.dst d).mp h2
  exact (chainFrom_append xs (x :: zs) s d).mpr ⟨m1, h1, hx1, h3⟩

/-- Every reachable node is reachable by a walk no longer than the link
registry. -/
theorem reachN_shorten (links : List Link) (src v : String) :
    ∀ m, ReachN links src v m → ∃ n, n ≤ links.length ∧ ReachN links src v n := by
  intro m
  induction m using Nat.strong_induction_on with
  | _ m ih =>
    intro h
    rcases le_or_lt m links.length with hle | hgt
    · exact ⟨m, hle, h⟩
    · obtain ⟨ls, hmem, hchain, hlen⟩ := h
      have hnotnodup : ¬ ls.Nodup := by
        intro hnd
        have hsub : ls ⊆ links := hmem
        have := (hnd.subperm hsub).length_le
        omega
      obtain ⟨xs, x, ys, zs, rfl⟩ := exists_dup_split ls hnotnodup
      have hcut : chainFrom src (xs ++ (x :: zs)) v := chainFrom_cut hchain
      have hmem' : ∀ l ∈ xs ++ (x :: zs), l ∈ links := by
        intro l hl
        apply hmem
        simp only [List.mem_append, List.mem_cons] at hl ⊢
        tauto
      have hshort : (xs ++ (x :: zs)).length < m := by
        have h1 : (xs ++ (x :: zs)).length = xs.length + zs.length + 1 := by
          simp [List.length_append, List.length_cons]
          omega
        have h2 : (xs ++ (x :: (ys ++ (x :: zs)))).length =
            xs.length + ys.length + zs.length + 2 := by
          simp [List.length_append, List.length_cons]
          omega
        omega
      exact ih _ hshort ⟨_, hmem', hcut, rfl⟩

/-- A fresh binding keeps every present key present. -/
theorem lookup_cons_isSome_mono {β : Type} (k : String) (v : β)
    (es : List (String × β)) (a : String) (h : (List.lookup a es).isSome) :
    (List.lookup a ((k, v) :: es)).isSome := by
  by_cases hak : a = k
  · subst hak
    rw [lookup_cons_same]
    rfl
  · rwa [lookup_cons_ne _ _ hak]

/-- Link pass evaluation: a link not departing from the current node,
or leading back to a visited node, changes nothing. -/
theorem bfsProcessLink_skip {c : String} {s : BfsState} {l : Link}
    (h : ¬(l.src = c ∧ l.dst ∉ s.visited)) : bfsProcessLink c s l = s := by
  unfold bfsProcessLink
  rw [if_neg h]

/-- Link pass evaluation: a link to an already queued or discovered
node changes nothing. -/
theorem bfsProcessLink_seen {c : String} {s : BfsState} {l : Link}
    (hsrc : l.src = c) (hdst : l.dst ∉ s.visited) (hq : l.dst ∈ s.unvisited)
    (hsome : (s.dist.lookup l.dst).isSome) : bfsProcessLink c s l = s := by
  unfold bfsProcessLink
  rw [if_pos ⟨hsrc, hdst⟩]
  simp only [if_pos hq, if_pos hsome]

/-- Link pass evaluation: a fresh node is enqueued and receives its
distance and predecessor. -/
theorem bfsProcessLink_new {c : String} {s : BfsState} {l : Link}
    (hsrc : l.src = c) (hdst : l.dst ∉ s.visited) (hq : l.dst ∉ s.unvisited)
    (hnot : ¬ (s.dist.lookup l.dst).isSome) :
    bfsProcessLink c s l =
      { s with
        unvisited := s.unvisited ++ [l.dst]
        dist := (l.dst, (s.dist.lookup c).getD 0 + 1) :: s.dist
        prev := (l.dst, c) :: s.prev } := by
  unfold bfsProcessLink
  rw [if_pos ⟨hsrc, hdst⟩]
  simp only [if_neg hq, if_neg hnot]

/-- The link pass never changes the visited list. -/
theorem bfsProcessLink_visited (c : String) (s : BfsState) (l : Link) :
    (bfsProcessLink c s l).visited = s.visited := by
  unfold bfsProcessLink
  by_cases h1 : l.src = c ∧ l.dst ∉ s.visited
  · rw [if_pos h1]
    by_cases h2 : l.dst ∈ s.unvisited
    · simp only [if_pos h2]
      by_cases h3 : (List.lookup l.dst s.dist).isSome
      · simp only [if_pos h3]
      · simp only [if_neg h3]
    · simp only [if_neg h2]
      by_cases h3 : (List.lookup l.dst s.dist).isSome
      · simp only [if_pos h3]
      · simp only [if_neg h3]
  · rw [if_neg h1]

/-- The whole links pass never changes the visited list. -/
theorem bfsProcessLinks_visited (L : List Link) (c : String) (s : BfsState) :
    (bfsProcessLinks L c s).visited = s.visited := by
  induction L generalizing s with
  | nil => rfl
  | cons l rest ih =>
    unfold bfsProcessLinks at ih ⊢
    rw [List.foldl_cons, ih, bfsProcessLink_visited]

/-- Processing one link preserves the mid-pass invariant. -/
theorem bfsMidInv_step {links : List Link} {src c : String} {k : ℕ} {s : BfsState}
    {l : Link} {rem : List Link} (hl : l ∈ links)
    (h : BfsMidInv links src c k s (l :: rem)) :
    BfsMidInv links src c k (bfsProcessLink c s l) rem := by
  obtain ⟨nodupV, nodupQ, disj, domD, distCorrect, distC, inV, layerM,
    closedOld, closedC, prevOk⟩ := h
  by_cases hcond : l.src = c ∧ l.dst ∉ s.visited
  case neg =>
    rw [bfsProcessLink_skip hcond]
    refine ⟨nodupV, nodupQ, disj, domD, distCorrect, distC, inV, layerM,
      closedOld, ?_, prevOk⟩
    intro l' hl' hsrc' hrem'
    by_cases hll : l' = l
    · subst hll
      have hdst : l'.dst ∈ s.visited := by
        by_contra hc
        exact hcond ⟨hsrc', hc⟩
      exact (domD _).mpr (Or.inl hdst)
    · refine closedC l' hl' hsrc' ?_
      simp only [List.mem_cons]
      rintro (rfl | hr)
      · exact hll rfl
      · exact hrem' hr
  case pos =>
    obtain ⟨hsrc, hdst⟩ := hcond
    by_cases hq : l.dst ∈ s.unvisited
    · have hsome : (s.dist.lookup l.dst).isSome := (domD _).mpr (Or.inr hq)
      rw [bfsProcessLink_seen hsrc hdst hq hsome]
      refine ⟨nodupV, nodupQ, disj, domD, distCorrect, distC, inV, layerM,
        closedOld, ?_, prevOk⟩
      intro l' hl' hsrc' hrem'
      by_cases hll : l' = l
      · subst hll
        exact hsome
      · refine closedC l' hl' hsrc' ?_
        simp only [List.mem_cons]
        rintro (rfl | hr)
        · exact hll rfl
        · exact hrem' hr
    · have hnot : ¬ (s.dist.lookup l.dst).isSome := by
        intro hs
        rcases (domD _).mp hs with h' | h'
        · exact hdst h'
        · exact hq h'
      rw [bfsProcessLink_new hsrc hdst hq hnot]
      have hdc : (s.dist.lookup c).getD 0 + 1 = k + 1 := by
        rw [distC]
        rfl
      have hcne : c ≠ l.dst := by
        intro hc
        exact hdst (hc ▸ inV)
      have hreachC : ReachN links src c k := (distCorrect c k distC).1
      have hreachD : ReachN links src l.dst (k + 1) := reachN_step hreachC hl hsrc
      obtain ⟨A, B, hAB, hA, hB, hV, hcomp⟩ := layerM
      have hmono : ∀ v, (s.dist.lookup v).isSome →
          (List.lookup v ((l.dst, (s.dist.lookup c).getD 0 + 1) :: s.dist)).isSome :=
        fun v hv => lookup_cons_isSome_mono _ _ _ v hv
      have hlook_ne : ∀ v, v ≠ l.dst →
          List.lookup v ((l.dst, (s.dist.lookup c).getD 0 + 1) :: s.dist) =
            s.dist.lookup v :=
        fun v hv => lookup_cons_ne _ _ hv
      have hlook_same :
          List.lookup l.dst ((l.dst, (s.dist.lookup c).getD 0 + 1) :: s.dist) =
            some (k + 1) := by
        rw [lookup_cons_same, hdc]
      have hminimal : ∀ m, ReachN links src l.dst m → k + 1 ≤ m := by
        intro m hm
        by_contra hlt
        push_neg at hlt
        have : m ≤ k := by omega
        exact hnot (hcomp _ _ hm this)
      refine ⟨nodupV, ?_, ?_, ?_, ?_, ?_, inV, ?_, ?_, ?_, ?_⟩
      · exact List.Nodup.append nodupQ (List.nodup_singleton _)
          (by intro a ha hb; simp only [List.mem_singleton] at hb; subst hb; exact hq ha)
      · intro v hv
        simp only [List.mem_append, List.mem_singleton]
        rintro (h' | rfl)
        · exact disj v hv h'
        · exact hdst hv
      · intro v
        by_cases hvd : v = l.dst
        · subst hvd
          rw [hlook_same]
          simp
        · rw [hlook_ne v hvd]
          rw [domD v]
          simp only [List.mem_append, List.mem_singleton]
          constructor
          · rintro (h' | h')
            · exact Or.inl h'
            · exact Or.inr (Or.inl h')
          · rintro (h' | h' | h')
            · exact Or.inl h'
            · exact Or.inr h'
            · exact absurd h' hvd
      · intro v n hv
        by_cases hvd : v = l.dst
        · subst hvd
          rw [hlook_same] at hv
          injection hv with hv
          subst hv
          exact ⟨hreachD, hminimal⟩
        · rw [hlook_ne v hvd] at hv
          exact distCorrect v n hv
      · rw [hlook_ne c hcne]
        exact distC
      · refine ⟨A, B ++ [l.dst], ?_, ?_, ?_, ?_, ?_⟩
        · simp only [hAB, List.append_assoc]
        · intro a ha
          have hane : a ≠ l.dst := by
            intro hc
            subst hc
            exact hq (hAB ▸ List.mem_append_left B ha)
          rw [hlook_ne a hane]
          exact hA a ha
        · intro b hb
          rcases List.mem_append.mp hb with hb' | hb'
          · have hbne : b ≠ l.dst := by
              intro hc
              subst hc
              exact hq (hAB ▸ List.mem_append_right A hb')
            rw [hlook_ne b hbne]
            exact hB b hb'
          · simp only [List.mem_singleton] at hb'
            subst hb'
            exact hlook_same
        · intro v hv
          obtain ⟨j, hj, hjv⟩ := hV v hv
          have hvne : v ≠ l.dst := by
            intro hc
            subst hc
            exact hdst hv
          exact ⟨j, hj, by rw [hlook_ne v hvne]; exact hjv⟩
        · intro v m hm hmk
          exact hmono v (hcomp v m hm hmk)
      · intro l' hl' hv' hc'
        exact hmono _ (closedOld l' hl' hv' hc')
      · intro l' hl' hsrc' hrem'
        by_cases hll : l' = l
        · subst hll
          rw [hlook_same]
          rfl
        · refine hmono _ (closedC l' hl' hsrc' ?_)
          simp only [List.mem_cons]
          rintro (rfl | hr)
          · exact hll rfl
          · exact hrem' hr
      · intro v n hvsrc hv
        by_cases hvd : v = l.dst
        · subst hvd
          rw [hlook_same] at hv
          injection hv with hv
          subst hv
          refine ⟨c, l, ?_, hl, hsrc, rfl, ?_⟩
          · rw [lookup_cons_same]
          · rw [hlook_ne c hcne, distC]
            congr 1
        · rw [hlook_ne v hvd] at hv
          obtain ⟨u, l'', hprev, hl'', hsrc'', hdst'', hu⟩ := prevOk v n hvsrc hv
          have hune : u ≠ l.dst := by
            intro hc
            subst hc
            exact hnot (by rw [hu]; rfl)
          refine ⟨u, l'', ?_, hl'', hsrc'', hdst'', ?_⟩
          · rw [lookup_cons_ne _ _ hvd]
            exact hprev
          · rw [hlook_ne u hune]
            exact hu

/-- Folding the link pass over any sublist of the registry preserves
the mid-pass invariant down to an empty remainder. -/
theorem bfsMidInv_fold {links : List Link} {src c : String} {k : ℕ} :
    ∀ (L : List Link) (s : BfsState), (∀ l ∈ L, l ∈ links) →
      BfsMidInv links src c k s L →
      BfsMidInv links src c k (L.foldl (bfsProcessLink c) s) [] := by
  intro L
  induction L with
  | nil =>
    intro s _ h
    exact h
  | cons l rest ih =>
    intro s hmem h
    rw [List.foldl_cons]
    exact ih _ (fun x hx => hmem x (List.mem_cons_of_mem l hx))
      (bfsMidInv_step (hmem l (List.mem_cons_self l rest)) h)

/-- Popping the queue head and marking it visited turns the loop
invariant into the mid-pass invariant for some layer index. -/
theorem bfsInv_pop {links : List Link} {src : String} {s : BfsState} {c : String}
    {rest : List String} (h : BfsInv links src s) (hq : s.unvisited = c :: rest) :
    ∃ k, BfsMidInv links src c k
      { s with unvisited := rest, visited := s.visited ++ [c] } links := by
  obtain ⟨nodupV, nodupQ, disj, domD, distCorrect, layer, closedV, prevOk⟩ := h
  obtain ⟨k, A, B, hAB, hA, hB, hV, hcomp⟩ := layer
  have hcV : c ∉ s.visited := fun hc => disj c hc (hq ▸ List.mem_cons_self c rest)
  have nodupV' : (s.visited ++ [c]).Nodup :=
    List.Nodup.append nodupV (List.nodup_singleton c)
      (fun a ha hb => by simp only [List.mem_singleton] at hb; subst hb; exact hcV ha)
  have hnodupcr : (c :: rest).Nodup := hq ▸ nodupQ
  have nodupQ' : rest.Nodup := (List.nodup_cons.mp hnodupcr).2
  have hcq : c ∉ rest := (List.nodup_cons.mp hnodupcr).1
  have disj' : ∀ v ∈ s.visited ++ [c], v ∉ rest := by
    intro v hv
    rcases List.mem_append.mp hv with hv' | hv'
    · intro hr
      exact disj v hv' (hq ▸ List.mem_cons_of_mem c hr)
    · simp only [List.mem_singleton] at hv'
      subst hv'
      exact hcq
  have domD' : ∀ v, (s.dist.lookup v).isSome ↔
      (v ∈ s.visited ++ [c] ∨ v ∈ rest) := by
    intro v
    rw [domD v, hq]
    simp only [List.mem_append, List.mem_singleton, List.mem_cons]
    tauto
  have inV' : c ∈ s.visited ++ [c] := List.mem_append_right _ (List.mem_singleton.mpr rfl)
  cases A with
  | cons a A' =>
    rw [hq] at hAB
    rw [List.cons_append] at hAB
    have hac : a = c := (List.cons.injEq _ _ _ _ ▸ hAB).1.symm
    have hrest : rest = A' ++ B := (List.cons.injEq _ _ _ _ ▸ hAB).2
    subst hac
    have distC : s.dist.lookup a = some k := hA a (List.mem_cons_self a A')
    refine ⟨k, nodupV', nodupQ', disj', domD', distCorrect, distC, inV', ?_, ?_, ?_, prevOk⟩
    · refine ⟨A', B, hrest, ?_, hB, ?_, hcomp⟩
      · intro x hx
        exact hA x (List.mem_cons_of_mem a hx)
      · intro v hv
        rcases List.mem_append.mp hv with hv' | hv'
        · exact hV v hv'
        · simp only [List.mem_singleton] at hv'
          subst hv'
          exact ⟨k, le_refl k, distC⟩
    · intro l hl hlv hlc
      rcases List.mem_append.mp hlv with hv' | hv'
      · exact closedV l hl hv'
      · simp only [List.mem_singleton] at hv'
        exact absurd hv' hlc
    · intro l hl _ hlrem
      exact absurd hl hlrem
  | nil =>
    rw [hq, List.nil_append] at hAB
    have hcB : c ∈ B := hAB ▸ List.mem_cons_self c rest
    have distC : s.dist.lookup c = some (k + 1) := hB c hcB
    refine ⟨k + 1, nodupV', nodupQ', disj', domD', distCorrect, distC, inV', ?_, ?_, ?_, prevOk⟩
    · refine ⟨rest, [], by simp, ?_, by simp, ?_, ?_⟩
      · intro x hx
        exact hB x (hAB ▸ List.mem_cons_of_mem c hx)
      · intro v hv
        rcases List.mem_append.mp hv with hv' | hv'
        · obtain ⟨j, hj, hjv⟩ := hV v hv'
          exact ⟨j, by omega, hjv⟩
        · simp only [List.mem_singleton] at hv'
          subst hv'
          exact ⟨k + 1, le_refl _, distC⟩
      · intro v m hm hmk
        rcases Nat.lt_or_ge m (k + 1) with hlt | hge
        · exact hcomp v m hm (by omega)
        · have hmeq : m = k + 1 := by omega
          subst hmeq
          obtain ⟨u, l, hu, hl, hsrcl, hdstl⟩ := reachN_succ hm
          have husome : (s.dist.lookup u).isSome := hcomp u k hu (le_refl k)
          obtain ⟨j, hj⟩ := Option.isSome_iff_exists.mp husome
          have hjk : j ≤ k := (distCorrect u j hj).2 k hu
          have huV : u ∈ s.visited := by
            rcases (domD u).mp husome with hv' | hv'
            · exact hv'
            · rw [hq] at hv'
              have : s.dist.lookup u = some (k + 1) := hB u (hAB ▸ hv')
              rw [hj] at this
              injection this with this
              omega
          have := closedV l hl (hsrcl ▸ huV)
          rwa [hdstl] at this
    · intro l hl hlv hlc
      rcases List.mem_append.mp hlv with hv' | hv'
      · exact closedV l hl hv'
      · simp only [List.mem_singleton] at hv'
        exact absurd hv' hlc
    · intro l hl _ hlrem
      exact absurd hl hlrem

/-- After the whole pass the mid-pass invariant yields the loop
invariant again. -/
theorem bfsMidInv_to_inv {links : List Link} {src c : String} {k : ℕ}
    {s : BfsState} (h : BfsMidInv links src c k s []) : BfsInv links src s := by
  obtain ⟨nodupV, nodupQ, disj, domD, distCorrect, distC, inV, layerM,
    closedOld, closedC, prevOk⟩ := h
  obtain ⟨A, B, hAB, hA, hB, hV, hcomp⟩ := layerM
  refine ⟨nodupV, nodupQ, disj, domD, distCorrect,
    ⟨k, A, B, hAB, hA, hB, hV, hcomp⟩, ?_, prevOk⟩
  intro l hl hlv
  by_cases hlc : l.src = c
  · exact closedC l hl hlc (List.not_mem_nil l)
  · exact closedOld l hl hlv hlc

/-- A single link pass enqueues at most one node, and only for a link
departing from the current node. -/
theorem bfsProcessLink_unvisited_le (c : String) (s : BfsState) (l : Link) :
    (bfsProcessLink c s l).unvisited.length ≤
      s.unvisited.length + (if l.src = c then 1 else 0) := by
  by_cases h1 : l.src = c ∧ l.dst ∉ s.visited
  · rw [if_pos h1.1]
    by_cases h2 : l.dst ∈ s.unvisited
    · by_cases h3 : (s.dist.lookup l.dst).isSome
      · rw [bfsProcessLink_seen h1.1 h1.2 h2 h3]
        omega
      · unfold bfsProcessLink
        rw [if_pos h1]
        simp only [if_pos h2, if_neg h3]
        simp
    · by_cases h3 : (s.dist.lookup l.dst).isSome
      · unfold bfsProcessLink
        rw [if_pos h1]
        simp only [if_neg h2, if_pos h3]
        simp
      · rw [bfsProcessLink_new h1.1 h1.2 h2 h3]
        simp
  · rw [bfsProcessLink_skip h1]
    omega

/-- The full pass enqueues at most one node per link departing from the
current node. -/
theorem bfsProcessLinks_unvisited_le (c : String) :
    ∀ (L : List Link) (s : BfsState),
      (L.foldl (bfsProcessLink c) s).unvisited.length ≤
        s.unvisited.length + L.countP (fun l => decide (l.src = c)) := by
  intro L
  induction L with
  | nil =>
    intro s
    simp
  | cons l rest ih =>
    intro s
    rw [List.foldl_cons, List.countP_cons]
    have h1 := ih (bfsProcessLink c s l)
    have h2 := bfsProcessLink_unvisited_le c s l
    by_cases hc : l.src = c
    · rw [if_pos hc] at h2
      have e : (decide (l.src = c)) = true := decide_eq_true hc
      rw [e]
      simp only [eq_self_iff_true, if_true]
      omega
    · have : (decide (l.src = c)) = false := decide_eq_false hc
      rw [if_neg hc] at h2
      rw [this]
      simp only [Bool.false_eq_true, if_false]
      omega

/-- Moving the current node into the visited set converts the links
departing from it between the two counters of the potential. -/
theorem countP_visited_snoc (links : List Link) (V : List String) (c : String)
    (hc : c ∉ V) :
    links.countP (fun l => decide (l.src ∉ V ++ [c]))
      + links.countP (fun l => decide (l.src = c))
      = links.countP (fun l => decide (l.src ∉ V)) := by
  induction links with
  | nil => rfl
  | cons l rest ih =>
    rw [List.countP_cons, List.countP_cons, List.countP_cons]
    by_cases h1 : l.src = c
    · have e1 : (decide (l.src ∉ V ++ [c])) = false := by
        simp [h1]
      have e2 : (decide (l.src = c)) = true := decide_eq_true h1
      have e3 : (decide (l.src ∉ V)) = true := decide_eq_true (h1 ▸ hc)
      rw [e1, e2, e3]
      simp only [Bool.false_eq_true, if_false, if_pos rfl]
      omega
    · by_cases h2 : l.src ∈ V
      · have e1 : (decide (l.src ∉ V ++ [c])) = false := by
          simp [h2]
        have e2 : (decide (l.src = c)) = false := decide_eq_false h1
        have e3 : (decide (l.src ∉ V)) = false := by
          simp [h2]
        rw [e1, e2, e3]
        simp only [Bool.false_eq_true, if_false]
        omega
      · have e1 : (decide (l.src ∉ V ++ [c])) = true := by
          simp [h2, h1]
        have e2 : (decide (l.src = c)) = false := decide_eq_false h1
        have e3 : (decide (l.src ∉ V)) = true := by
          simp [h2]
        rw [e1, e2, e3]
        simp only [Bool.false_eq_true, if_false, if_pos rfl]
        omega

/-- Every loop iteration strictly decreases the potential. -/
theorem bfsPotential_decreases {links : List Link} {src : String} {s : BfsState}
    {c : String} {rest : List String} (h : BfsInv links src s)
    (hq : s.unvisited = c :: rest) :
    bfsPotential links (bfsProcessLinks links c
      { s with unvisited := rest, visited := s.visited ++ [c] })
      < bfsPotential links s := by
  have hcV : c ∉ s.visited := fun hc => h.disj c hc (hq ▸ List.mem_cons_self c rest)
  unfold bfsPotential bfsProcessLinks
  have h1 := bfsProcessLinks_unvisited_le c links
    { s with unvisited := rest, visited := s.visited ++ [c] }
  have ha : ({ s with unvisited := rest, visited := s.visited ++ [c] } :
      BfsState).unvisited.length = rest.length := rfl
  rw [ha] at h1
  have h2 := bfsProcessLinks_visited links c
    { s with unvisited := rest, visited := s.visited ++ [c] }
  unfold bfsProcessLinks at h2
  simp only [h2]
  have h3 := countP_visited_snoc links s.visited c hcV
  rw [hq]
  simp only [List.length_cons]
  omega

/-- The initial BFS state satisfies the loop invariant. -/
theorem bfsInv_init (links : List Link) (src : String) :
    BfsInv links src ⟨[src], [], [(src, 0)], []⟩ := by
  refine ⟨List.nodup_nil, List.nodup_singleton _, by simp, ?_, ?_, ?_, by simp, ?_⟩
  · intro v
    by_cases hv : v = src
    · subst hv
      rw [lookup_cons_same]
      simp
    · rw [lookup_cons_ne _ _ hv]
      simp [hv]
  · intro v n hv
    by_cases hvs : v = src
    · subst hvs
      rw [lookup_cons_same] at hv
      injection hv with hv
      subst hv
      exact ⟨(reachN_zero_iff links v v).mpr rfl, fun m _ => Nat.zero_le m⟩
    · rw [lookup_cons_ne _ _ hvs] at hv
      simp [List.lookup] at hv
  · refine ⟨0, [src], [], rfl, ?_, by simp, by simp, ?_⟩
    · intro a ha
      simp only [List.mem_singleton] at ha
      subst ha
      exact lookup_cons_same _ _ _
    · intro v m hm hm0
      have : m = 0 := by omega
      subst this
      have : v = src := (reachN_zero_iff links src v).mp hm
      subst this
      rw [lookup_cons_same]
      rfl
  · intro v n hvs hv
    rw [lookup_cons_ne _ _ hvs] at hv
    simp [List.lookup] at hv

/-- The initial potential is the fuel used by `calculateShortestPath`. -/
theorem bfsPotential_init (links : List Link) (src : String) :
    bfsPotential links ⟨[src], [], [(src, 0)], []⟩ = links.length + 1 := by
  unfold bfsPotential
  have : links.countP (fun l => decide (l.src ∉ ([] : List String))) = links.length :=
    List.countP_eq_length.mpr (fun l _ => by simp)
  simp only [this, List.length_singleton]
  omega

/-- Running the BFS loop with enough fuel empties the queue and
preserves the invariant. -/
theorem bfsLoop_spec {links : List Link} {src : String} :
    ∀ (fuel : ℕ) (s : BfsState), BfsInv links src s →
      bfsPotential links s ≤ fuel →
      (bfsLoop links fuel s).unvisited = [] ∧
        BfsInv links src (bfsLoop links fuel s) := by
  intro fuel
  induction fuel with
  | zero =>
    intro s h hpot
    have hq : s.unvisited = [] := by
      unfold bfsPotential at hpot
      exact List.length_eq_zero.mp (by omega)
    exact ⟨hq, h⟩
  | succ fuel ih =>
    intro s h hpot
    cases hq : s.unvisited with
    | nil =>
      have hloop : bfsLoop links (fuel + 1) s = s := by
        simp only [bfsLoop]
        rw [hq]
      rw [hloop]
      exact ⟨hq, h⟩
    | cons c rest =>
      have hloop : bfsLoop links (fuel + 1) s = bfsLoop links fuel
          (bfsProcessLinks links c
            { s with unvisited := rest, visited := s.visited ++ [c] }) := by
        simp only [bfsLoop]
        rw [hq]
      obtain ⟨k, hmid⟩ := bfsInv_pop h hq
      have hmid' : BfsMidInv links src c k (bfsProcessLinks links c
          { s with unvisited := rest, visited := s.visited ++ [c] }) [] := by
        unfold bfsProcessLinks
        exact bfsMidInv_fold links _ (fun _ hx => hx) hmid
      have hinv' := bfsMidInv_to_inv hmid'
      have hdec := bfsPotential_decreases h hq
      rw [hloop]
      exact ih _ hinv' (by omega)

/-- After the loop has drained the queue, every reachable node has been
discovered. -/
theorem bfs_final_discovered {links : List Link} {src : String} {F : BfsState}
    (hInv : BfsInv links src F) (hqe : F.unvisited = []) :
    ∀ (m : ℕ) (v : String), ReachN links src v m → (F.dist.lookup v).isSome := by
  intro m
  induction m with
  | zero =>
    intro v hv
    have hvs : v = src := (reachN_zero_iff links src v).mp hv
    subst hvs
    obtain ⟨k, A, B, hAB, hA, hB, hV, hcomp⟩ := hInv.layer
    exact hcomp v 0 hv (Nat.zero_le k)
  | succ m ih =>
    intro v hv
    obtain ⟨u, l, hu, hl, hsrcl, hdstl⟩ := reachN_succ hv
    have hus := ih u hu
    have huV : u ∈ F.visited := by
      rcases (hInv.domD u).mp hus with h' | h'
      · exact h'
      · rw [hqe] at h'
        simp at h'
    have := hInv.closedV l hl (hsrcl ▸ huV)
    rwa [hdstl] at this

/-- If some registered link joins `u` to `v`, `getLink` returns one. -/
theorem getLink_found {net : Network} {u v : String}
    (h : ∃ l, l ∈ net.links ∧ l.src = u ∧ l.dst = v) :
    ∃ l', net.getLink u v = some l' ∧ l' ∈ net.links ∧ l'.src = u ∧ l'.dst = v := by
  obtain ⟨l, hl, hsrc, hdst⟩ := h
  have hsome : (net.links.find? (fun x => x.isLinkFor u v)).isSome := by
    rw [List.find?_isSome]
    exact ⟨l, hl, by simp [Link.isLinkFor, hsrc, hdst]⟩
  obtain ⟨l', hl'⟩ := Option.isSome_iff_exists.mp hsome
  have hmem := List.mem_of_find?_eq_some hl'
  have hprop := List.find?_some hl'
  simp only [Link.isLinkFor, Bool.and_eq_true, beq_iff_eq] at hprop
  exact ⟨l', hl', hmem, hprop.1, hprop.2⟩

/-- `Path.addLinks` appends when no stored link has the same ordered
pair. -/
theorem path_addLinks_fresh {p : Path} {l : Link}
    (h : ∀ x ∈ p.links, ¬(x.src = l.src ∧ x.dst = l.dst)) :
    p.addLinks l = { p with links := p.links ++ [l] } := by
  unfold Path.addLinks
  rw [if_neg]
  simp only [List.any_eq_true, Link.isLinkFor, Bool.and_eq_true, beq_iff_eq,
    not_exists, not_and]
  intro x hx h1 h2
  exact h x hx ⟨h1, h2⟩

/-- Correctness of the backward reconstruction: starting from a node at
distance `n` with sufficient fuel the loop appends a walk of exactly
`n` registered links from the source to that node. -/
theorem reconstructLoop_spec {net : Network} {src : String} {F : BfsState}
    (hInv : BfsInv net.links src F) :
    ∀ (n fuel : ℕ) (cur : String) (acc : Path), n < fuel →
      F.dist.lookup cur = some n →
      (∀ x ∈ acc.links, ∃ m, F.dist.lookup x.dst = some m ∧ n < m) →
      ∃ ws, reconstructLoop net F.prev src fuel cur acc =
          { acc with links := acc.links ++ ws } ∧
        ws.length = n ∧ chainFrom src ws.reverse cur ∧
        (∀ l ∈ ws, l ∈ net.links) ∧
        (∀ x ∈ ws, ∃ m, F.dist.lookup x.dst = some m ∧ m ≤ n) := by
  intro n
  induction n with
  | zero =>
    intro fuel cur acc hfuel hcur hacc
    have hcs : cur = src :=
      (reachN_zero_iff net.links src cur).mp (hInv.distCorrect cur 0 hcur).1
    subst hcs
    cases fuel with
    | zero => omega
    | succ f =>
      refine ⟨[], ?_, rfl, rfl, by simp, by simp⟩
      unfold reconstructLoop
      rw [if_pos rfl]
      simp
  | succ n ih =>
    intro fuel cur acc hfuel hcur hacc
    have hcs : cur ≠ src := by
      intro hc
      have hreach0 : ReachN net.links src cur 0 :=
        (reachN_zero_iff net.links src cur).mpr hc
      have := (hInv.distCorrect cur (n + 1) hcur).2 0 hreach0
      omega
    cases fuel with
    | zero => omega
    | succ f =>
      obtain ⟨u, l, hprev, hl, hsrcl, hdstl, hu⟩ :=
        hInv.prevOk cur (n + 1) hcs hcur
      obtain ⟨l', hgl, hl', hsrc', hdst'⟩ := getLink_found ⟨l, hl, hsrcl, hdstl⟩
      have haddl : acc.addLinks l' = { acc with links := acc.links ++ [l'] } := by
        apply path_addLinks_fresh
        rintro x hx ⟨hx1, hx2⟩
        obtain ⟨m, hm, hmlt⟩ := hacc x hx
        rw [hx2, hdst', hcur] at hm
        injection hm with hm
        omega
      have hstep : reconstructLoop net F.prev src (f + 1) cur acc =
          reconstructLoop net F.prev src f u (acc.addLinks l') := by
        simp only [reconstructLoop, if_neg hcs, hprev, hgl]
      have hacc' : ∀ x ∈ (acc.addLinks l').links,
          ∃ m, F.dist.lookup x.dst = some m ∧ n < m := by
        rw [haddl]
        intro x hx
        rcases List.mem_append.mp hx with hx' | hx'
        · obtain ⟨m, hm, hlt⟩ := hacc x hx'
          exact ⟨m, hm, by omega⟩
        · simp only [List.mem_singleton] at hx'
          subst hx'
          exact ⟨n + 1, by rw [hdst']; exact hcur, by omega⟩
      obtain ⟨ws', heq, hlen, hchain, hmem, hbound⟩ :=
        ih f u (acc.addLinks l') (by omega) hu hacc'
      refine ⟨l' :: ws', ?_, by simp [hlen], ?_, ?_, ?_⟩
      · rw [hstep, heq, haddl]
        simp
      · rw [List.reverse_cons]
        have hsnoc := chainFrom_snoc hchain hsrc'
        rwa [hdst'] at hsnoc
      · intro x hx
        rcases List.mem_cons.mp hx with rfl | hx'
        · exact hl'
        · exact hmem x hx'
      · intro x hx
        rcases List.mem_cons.mp hx with rfl | hx'
        · exact ⟨n + 1, by rw [hdst']; exact hcur, le_refl _⟩
        · obtain ⟨m, hm, hmn⟩ := hbound x hx'
          exact ⟨m, hm, by omega⟩

/-- C1 amended: for every Network with no cached Path for (src, dst)
and dst reachable from src over the registered directional links,
`calculateShortestPath` returns a Path from src to dst whose links
(walked in reverse storage order) form a directed path from src to dst
using registered links, of minimum length among all such directed
paths. -/
theorem calculateShortestPath_minimal (net : Network) (src dst : String)
    (hcache : net.lookupPath src dst = none)
    (hreach : ∃ ls, (∀ l ∈ ls, l ∈ net.links) ∧ chainFrom src ls dst) :
    (net.calculateShortestPath src dst).1.src = src ∧
    (net.calculateShortestPath src dst).1.dst = dst ∧
    (∀ l ∈ (net.calculateShortestPath src dst).1.links, l ∈ net.links) ∧
    chainFrom src (net.calculateShortestPath src dst).1.links.reverse dst ∧
    ∀ ls, (∀ l ∈ ls, l ∈ net.links) → chainFrom src ls dst →
      (net.calculateShortestPath src dst).1.links.length ≤ ls.length := by
  have hF := @bfsLoop_spec net.links src (net.links.length + 1)
    ⟨[src], [], [(src, 0)], []⟩ (bfsInv_init _ _) (by rw [bfsPotential_init])
  obtain ⟨hqe, hInv⟩ := hF
  obtain ⟨ls0, hls0mem, hls0chain⟩ := hreach
  have hreachN : ReachN net.links src dst ls0.length := ⟨ls0, hls0mem, hls0chain, rfl⟩
  have hsome := bfs_final_discovered hInv hqe ls0.length dst hreachN
  obtain ⟨nd, hnd⟩ := Option.isSome_iff_exists.mp hsome
  have hmin := (hInv.distCorrect dst nd hnd).2
  obtain ⟨n', hn'le, hn'⟩ := reachN_shorten net.links src dst ls0.length hreachN
  have hndle : nd ≤ net.links.length := le_trans (hmin n' hn') hn'le
  obtain ⟨ws, heq, hlen, hchain, hmem, _⟩ :=
    reconstructLoop_spec hInv nd (net.links.length + 1) dst ⟨src, dst, []⟩
      (by omega) hnd (by simp)
  have hpath1 : (net.calculateShortestPath src dst).1 = ⟨src, dst, ws⟩ := by
    simp only [Network.calculateShortestPath, hcache]
    rw [heq]
    simp
  rw [hpath1]
  refine ⟨rfl, rfl, hmem, hchain, ?_⟩
  intro ls hlsm hlsc
  have hre : ReachN net.links src dst ls.length := ⟨ls, hlsm, hlsc, rfl⟩
  have := hmin _ hre
  simp only [hlen]
  omega

/-- C1 counterexample: on a Network whose cache holds a bogus empty
Path for the pair (A, B), `calculateShortestPath` returns that cached
Path even though B is reachable from A, and its links do not form a
directed path from A to B. -/
theorem calculateShortestPath_cached_cex :
    (netCexPath.calculateShortestPath "A" "B").1.links = [] ∧
    (∃ ls, (∀ l ∈ ls, l ∈ netCexPath.links) ∧ chainFrom "A" ls "B") ∧
    ¬ chainFrom "A" ((netCexPath.calculateShortestPath "A" "B").1.links.reverse) "B" := by
  have hlinks : (netCexPath.calculateShortestPath "A" "B").1.links = [] := rfl
  refine ⟨hlinks, ⟨[linkAB], fun _ hl => hl, ⟨rfl, rfl⟩⟩, ?_⟩
  rw [hlinks]
  intro h
  exact absurd h (by decide)

/-- C1 amended witness: the uncached pair (A, C) of the two-hop network
`netReach`. -/
theorem calculateShortestPath_minimal_witness :
    netReach.lookupPath "A" "C" = none ∧
    ((netReach.calculateShortestPath "A" "C").1.src = "A" ∧
     (netReach.calculateShortestPath "A" "C").1.dst = "C" ∧
     (∀ l ∈ (netReach.calculateShortestPath "A" "C").1.links, l ∈ netReach.links) ∧
     chainFrom "A" (netReach.calculateShortestPath "A" "C").1.links.reverse "C" ∧
     ∀ ls, (∀ l ∈ ls, l ∈ netReach.links) → chainFrom "A" ls "C" →
       (netReach.calculateShortestPath "A" "C").1.links.length ≤ ls.length) :=
  ⟨rfl, calculateShortestPath_minimal netReach "A" "C" rfl
    ⟨[linkAB, linkBC], fun _ hl => hl, ⟨rfl, rfl, rfl⟩⟩⟩

/-- C10: the state-threaded `runAlgorithmsForPort` leaves the caller's
idle-slope list (contents and order) and every calculator configuration
attribute unchanged, and returns the same result dict as the pure
engine. -/
theorem runAlgorithmsForPort_frame (c : CBSLatencyCalculator)
    (idleSlope streamMaxFrame classMaxFrame : ℚ) (nrInputLinks : ℤ)
    (inputIdleSlopes : List ℚ) :
    (c.runAlgorithmsForPortSt idleSlope streamMaxFrame classMaxFrame nrInputLinks
        inputIdleSlopes).2.1 = c ∧
    (c.runAlgorithmsForPortSt idleSlope streamMaxFrame classMaxFrame nrInputLinks
        inputIdleSlopes).2.2 = inputIdleSlopes ∧
    (c.runAlgorithmsForPortSt idleSlope streamMaxFrame classMaxFrame nrInputLinks
        inputIdleSlopes).1 =
      c.runAlgorithmsForPort idleSlope streamMaxFrame classMaxFrame nrInputLinks
        inputIdleSlopes :=
  ⟨rfl, rfl, rfl⟩

end TSN
